import Mathlib

/-!
Verification development for the `urlblob` library.

The Python sources are shallowly embedded:
* a blob is a `List Nat` of bytes, a decoded text is a `List Nat` of
  Unicode code points, and the HTTP byte-range fetch
  `self.get(start=a, end=b)` (inclusive `b`, as in HTTP `Range` headers)
  is the pure function `httpGet`;
* `bytes.decode("utf-8")` is modelled by `decodeUtf8`, which mirrors
  CPython's UTF-8 decoder including the `UnicodeDecodeError` fields
  `start`, `end` and `reason` ("invalid start byte",
  "invalid continuation byte", "unexpected end of data") that
  `grow_to_valid_string` / `shrink_to_valid_string` branch on;
* `bytes.decode("utf-8", errors="replace")` is `decodeReplace`;
* the sync and async variants (`SyncUrlBlob` in `sync.py`, `UrlBlob` in
  `blob.py`) are line-for-line identical in the modelled logic, so a single
  embedding covers both.
-/

namespace Urlblob

/-- The reason carried by a CPython `UnicodeDecodeError`; the source matches
on the string via `reason.startswith("invalid start")` and
`reason.startswith("unexpected end")`. -/
inductive DecReason where
  | invalidStart
  | invalidCont
  | unexpectedEnd
deriving DecidableEq, Repr

/-- The `start`/`end`/`reason` payload of a `UnicodeDecodeError`
(`stop` stands for Python's `e.end`). -/
structure DecodeError where
  start : Nat
  stop : Nat
  reason : DecReason
deriving DecidableEq, Repr

/-- Result of decoding one UTF-8 sequence from the front of the input:
either a code point together with the number of bytes consumed, or an
error reason together with the length of the error span. -/
inductive StepRes where
  | ok (cp : Nat) (k : Nat)
  | err (r : DecReason) (span : Nat)
deriving DecidableEq, Repr

/-- A UTF-8 continuation byte (`0x80`–`0xBF`). -/
def isCont (b : Nat) : Bool := 0x80 ≤ b && b < 0xC0

/-- Valid range of the first continuation byte of a three-byte sequence
(CPython restricts it after `0xE0`/`0xED` to exclude overlong forms and
surrogates). -/
def cont1ok3 (b0 b1 : Nat) : Bool :=
  if b0 = 0xE0 then 0xA0 ≤ b1 && b1 < 0xC0
  else if b0 = 0xED then 0x80 ≤ b1 && b1 < 0xA0
  else isCont b1

/-- Valid range of the first continuation byte of a four-byte sequence
(restricted after `0xF0`/`0xF4` to exclude overlong forms and planes
above U+10FFFF). -/
def cont1ok4 (b0 b1 : Nat) : Bool :=
  if b0 = 0xF0 then 0x90 ≤ b1 && b1 < 0xC0
  else if b0 = 0xF4 then 0x80 ≤ b1 && b1 < 0x90
  else isCont b1

/-- One step of CPython's strict UTF-8 decoder on input `b :: rest`. -/
def utf8Step (b : Nat) (rest : List Nat) : StepRes :=
  if b < 0x80 then .ok b 1
  else if b < 0xC2 then .err .invalidStart 1
  else if b < 0xE0 then
    match rest with
    | [] => .err .unexpectedEnd 1
    | b1 :: _ =>
      if isCont b1 then .ok ((b - 0xC0) * 0x40 + (b1 - 0x80)) 2
      else .err .invalidCont 1
  else if b < 0xF0 then
    match rest with
    | [] => .err .unexpectedEnd 1
    | b1 :: rest1 =>
      if cont1ok3 b b1 then
        match rest1 with
        | [] => .err .unexpectedEnd 2
        | b2 :: _ =>
          if isCont b2 then
            .ok (((b - 0xE0) * 0x40 + (b1 - 0x80)) * 0x40 + (b2 - 0x80)) 3
          else .err .invalidCont 2
      else .err .invalidCont 1
  else if b < 0xF5 then
    match rest with
    | [] => .err .unexpectedEnd 1
    | b1 :: rest1 =>
      if cont1ok4 b b1 then
        match rest1 with
        | [] => .err .unexpectedEnd 2
        | b2 :: rest2 =>
          if isCont b2 then
            match rest2 with
            | [] => .err .unexpectedEnd 3
            | b3 :: _ =>
              if isCont b3 then
                .ok ((((b - 0xF0) * 0x40 + (b1 - 0x80)) * 0x40 + (b2 - 0x80))
                      * 0x40 + (b3 - 0x80)) 4
              else .err .invalidCont 3
          else .err .invalidCont 2
      else .err .invalidCont 1
  else .err .invalidStart 1

/-- Strict UTF-8 decode from absolute position `pos`, fuelled so that the
kernel can evaluate it; `fuel = length` always suffices because each step
consumes at least one byte. -/
def decodeFromF : Nat → List Nat → Nat → Except DecodeError (List Nat)
  | _, [], _ => .ok []
  | 0, _ :: _, _ => .ok []
  | fuel + 1, b :: bs, pos =>
    match utf8Step b bs with
    | .ok cp k => (decodeFromF fuel (bs.drop (k - 1)) (pos + k)).map (cp :: ·)
    | .err r span => .error ⟨pos, pos + span, r⟩

/-- Strict UTF-8 decode of a byte string from position `pos`. -/
def decodeFrom (bs : List Nat) (pos : Nat) : Except DecodeError (List Nat) :=
  decodeFromF bs.length bs pos

/-- `bytes.decode("utf-8")`: either the code points or a
`UnicodeDecodeError` payload. -/
def decodeUtf8 (bs : List Nat) : Except DecodeError (List Nat) :=
  decodeFrom bs 0

/-- Fuelled lossy decode, one U+FFFD per error span
(CPython `errors="replace"`). -/
def decodeReplaceF : Nat → List Nat → List Nat
  | _, [] => []
  | 0, _ :: _ => []
  | fuel + 1, b :: bs =>
    match utf8Step b bs with
    | .ok cp k => cp :: decodeReplaceF fuel (bs.drop (k - 1))
    | .err _ span => 0xFFFD :: decodeReplaceF fuel (bs.drop (span - 1))

/-- `bytes.decode("utf-8", errors="replace")`. -/
def decodeReplace (bs : List Nat) : List Nat :=
  decodeReplaceF bs.length bs

/-- A Unicode scalar value: what a valid UTF-8 byte string encodes. -/
def ValidScalar (c : Nat) : Prop := c < 0x110000 ∧ (c < 0xD800 ∨ 0xE000 ≤ c)

instance (c : Nat) : Decidable (ValidScalar c) := by
  unfold ValidScalar; infer_instance

/-- UTF-8 encoding of one scalar value. -/
def utf8EncodeChar (c : Nat) : List Nat :=
  if c < 0x80 then [c]
  else if c < 0x800 then [0xC0 + c / 0x40, 0x80 + c % 0x40]
  else if c < 0x10000 then
    [0xE0 + c / 0x1000, 0x80 + c / 0x40 % 0x40, 0x80 + c % 0x40]
  else
    [0xF0 + c / 0x40000, 0x80 + c / 0x1000 % 0x40, 0x80 + c / 0x40 % 0x40,
     0x80 + c % 0x40]

/-- UTF-8 encoding of a code-point sequence. -/
def utf8Encode : List Nat → List Nat
  | [] => []
  | c :: cs => utf8EncodeChar c ++ utf8Encode cs

theorem utf8Encode_append (xs ys : List Nat) :
    utf8Encode (xs ++ ys) = utf8Encode xs ++ utf8Encode ys := by
  induction xs with
  | nil => rfl
  | cons c cs ih => simp [utf8Encode, ih]

theorem utf8EncodeChar_length_pos (c : Nat) : 0 < (utf8EncodeChar c).length := by
  unfold utf8EncodeChar
  split <;> simp_all <;> split <;> simp_all
  split <;> simp

theorem utf8EncodeChar_length_le (c : Nat) : (utf8EncodeChar c).length ≤ 4 := by
  unfold utf8EncodeChar
  split <;> simp_all <;> split <;> simp_all
  split <;> simp

theorem utf8Step_err_bounds (b : Nat) (rest : List Nat) (r : DecReason)
    (span : Nat) (h : utf8Step b rest = .err r span) :
    1 ≤ span ∧ span ≤ rest.length + 1 := by
  rcases rest with _ | ⟨b1, _ | ⟨b2, _ | ⟨b3, rest4⟩⟩⟩ <;>
    (simp only [utf8Step] at h; split_ifs at h <;> simp_all <;> omega)

theorem utf8Step_ok_bounds (b : Nat) (rest : List Nat) (cp k : Nat)
    (h : utf8Step b rest = .ok cp k) : 1 ≤ k ∧ k ≤ rest.length + 1 := by
  rcases rest with _ | ⟨b1, _ | ⟨b2, _ | ⟨b3, rest4⟩⟩⟩ <;>
    (simp only [utf8Step] at h; split_ifs at h <;> simp_all <;> omega)

theorem decodeFromF_fuel : ∀ (f g : Nat) (bs : List Nat) (pos : Nat),
    bs.length ≤ f → bs.length ≤ g → decodeFromF f bs pos = decodeFromF g bs pos := by
  intro f
  induction f with
  | zero =>
    intro g bs pos hf hg
    cases bs with
    | nil => cases g <;> rfl
    | cons b bs' => simp at hf
  | succ f ih =>
    intro g bs pos hf hg
    cases bs with
    | nil => cases g <;> rfl
    | cons b bs' =>
      cases g with
      | zero => simp at hg
      | succ g' =>
        simp only [decodeFromF]
        cases hstep : utf8Step b bs' with
        | ok cp k =>
          simp only [hstep]
          have h1 : (bs'.drop (k - 1)).length ≤ f := by
            simp only [List.length_drop]; simp at hf; omega
          have h2 : (bs'.drop (k - 1)).length ≤ g' := by
            simp only [List.length_drop]; simp at hg; omega
          rw [ih g' _ _ h1 h2]
        | err r span => simp only [hstep]

theorem decodeFrom_nil (pos : Nat) : decodeFrom [] pos = .ok [] := rfl

theorem decodeFrom_cons (b : Nat) (bs : List Nat) (pos : Nat) :
    decodeFrom (b :: bs) pos =
      match utf8Step b bs with
      | .ok cp k => (decodeFrom (bs.drop (k - 1)) (pos + k)).map (cp :: ·)
      | .err r span => .error ⟨pos, pos + span, r⟩ := by
  show decodeFromF (b :: bs).length (b :: bs) pos = _
  rw [List.length_cons]
  simp only [decodeFromF]
  cases hstep : utf8Step b bs with
  | ok cp k =>
    simp only [hstep]
    have hh : decodeFromF bs.length (bs.drop (k - 1)) (pos + k) =
        decodeFrom (bs.drop (k - 1)) (pos + k) := by
      apply decodeFromF_fuel
      · simp only [List.length_drop]; omega
      · exact le_rfl
    rw [hh]
  | err r span => simp only [hstep]

theorem decodeReplaceF_fuel : ∀ (f g : Nat) (bs : List Nat),
    bs.length ≤ f → bs.length ≤ g → decodeReplaceF f bs = decodeReplaceF g bs := by
  intro f
  induction f with
  | zero =>
    intro g bs hf hg
    cases bs with
    | nil => cases g <;> rfl
    | cons b bs' => simp at hf
  | succ f ih =>
    intro g bs hf hg
    cases bs with
    | nil => cases g <;> rfl
    | cons b bs' =>
      cases g with
      | zero => simp at hg
      | succ g' =>
        simp only [decodeReplaceF]
        cases hstep : utf8Step b bs' with
        | ok cp k =>
          simp only [hstep]
          have h1 : (bs'.drop (k - 1)).length ≤ f := by
            simp only [List.length_drop]; simp at hf; omega
          have h2 : (bs'.drop (k - 1)).length ≤ g' := by
            simp only [List.length_drop]; simp at hg; omega
          rw [ih g' _ h1 h2]
        | err r span =>
          simp only [hstep]
          have h1 : (bs'.drop (span - 1)).length ≤ f := by
            simp only [List.length_drop]; simp at hf; omega
          have h2 : (bs'.drop (span - 1)).length ≤ g' := by
            simp only [List.length_drop]; simp at hg; omega
          rw [ih g' _ h1 h2]

theorem decodeReplace_nil : decodeReplace [] = [] := rfl

theorem decodeReplace_cons (b : Nat) (bs : List Nat) :
    decodeReplace (b :: bs) =
      match utf8Step b bs with
      | .ok cp k => cp :: decodeReplace (bs.drop (k - 1))
      | .err _ span => 0xFFFD :: decodeReplace (bs.drop (span - 1)) := by
  show decodeReplaceF (b :: bs).length (b :: bs) = _
  rw [List.length_cons]
  simp only [decodeReplaceF]
  cases hstep : utf8Step b bs with
  | ok cp k =>
    simp only [hstep]
    rw [decodeReplaceF_fuel bs.length (bs.drop (k - 1)).length _
      (by simp only [List.length_drop]; omega) le_rfl]
    rfl
  | err r span =>
    simp only [hstep]
    rw [decodeReplaceF_fuel bs.length (bs.drop (span - 1)).length _
      (by simp only [List.length_drop]; omega) le_rfl]
    rfl

theorem decodeFrom_err_bounds : ∀ (n : Nat) (bs : List Nat) (pos : Nat)
    (e : DecodeError), bs.length ≤ n → decodeFrom bs pos = .error e →
    pos ≤ e.start ∧ e.start < e.stop ∧ e.stop ≤ pos + bs.length := by
  intro n
  induction n with
  | zero =>
    intro bs pos e hn h
    cases bs with
    | nil => simp [decodeFrom_nil] at h
    | cons b bs' => simp at hn
  | succ n ih =>
    intro bs pos e hn h
    cases bs with
    | nil => simp [decodeFrom_nil] at h
    | cons b bs' =>
      rw [decodeFrom_cons] at h
      cases hstep : utf8Step b bs' with
      | ok cp k =>
        simp only [hstep] at h
        cases hrec : decodeFrom (bs'.drop (k - 1)) (pos + k) with
        | ok l => simp only [hrec] at h; simp [Except.map] at h
        | error e' =>
          simp only [hrec] at h
          simp only [Except.map] at h
          cases h
          have hk := utf8Step_ok_bounds b bs' cp k hstep
          have hb := ih (bs'.drop (k - 1)) (pos + k) e
            (by simp only [List.length_drop]; simp at hn; omega) hrec
          simp only [List.length_drop] at hb
          simp only [List.length_cons]
          omega
      | err r span =>
        simp only [hstep] at h
        cases h
        have hs := utf8Step_err_bounds b bs' r span hstep
        simp only [List.length_cons]
        omega

/-- Bounds of a `UnicodeDecodeError` raised by a strict decode: the error
span is nonempty and lies inside the buffer. -/
theorem decodeUtf8_err_bounds (bs : List Nat) (e : DecodeError)
    (h : decodeUtf8 bs = .error e) :
    e.start < e.stop ∧ e.stop ≤ bs.length := by
  have := decodeFrom_err_bounds bs.length bs 0 e le_rfl h
  omega

theorem utf8Step_ascii (b : Nat) (h : b < 0x80) (rest : List Nat) :
    utf8Step b rest = .ok b 1 := by
  simp only [utf8Step]; rw [if_pos h]

theorem utf8Step_contHead (b : Nat) (h1 : 0x80 ≤ b) (h2 : b < 0xC2)
    (rest : List Nat) : utf8Step b rest = .err .invalidStart 1 := by
  simp only [utf8Step]; rw [if_neg (by omega), if_pos h2]

theorem utf8Step_ok2 (b b1 : Nat) (h1 : 0xC2 ≤ b) (h2 : b < 0xE0)
    (hc : isCont b1 = true) (rest : List Nat) :
    utf8Step b (b1 :: rest) = .ok ((b - 0xC0) * 0x40 + (b1 - 0x80)) 2 := by
  simp only [utf8Step]
  rw [if_neg (by omega), if_neg (by omega), if_pos h2]
  simp only [hc, if_true]

theorem utf8Step_ok3 (b b1 b2 : Nat) (h1 : 0xE0 ≤ b) (h2 : b < 0xF0)
    (hc1 : cont1ok3 b b1 = true) (hc2 : isCont b2 = true) (rest : List Nat) :
    utf8Step b (b1 :: b2 :: rest) =
      .ok (((b - 0xE0) * 0x40 + (b1 - 0x80)) * 0x40 + (b2 - 0x80)) 3 := by
  simp only [utf8Step]
  rw [if_neg (by omega), if_neg (by omega), if_neg (by omega), if_pos h2]
  simp only [hc1, hc2, if_true]

theorem utf8Step_ok4 (b b1 b2 b3 : Nat) (h1 : 0xF0 ≤ b) (h2 : b < 0xF5)
    (hc1 : cont1ok4 b b1 = true) (hc2 : isCont b2 = true)
    (hc3 : isCont b3 = true) (rest : List Nat) :
    utf8Step b (b1 :: b2 :: b3 :: rest) =
      .ok ((((b - 0xF0) * 0x40 + (b1 - 0x80)) * 0x40 + (b2 - 0x80)) * 0x40
        + (b3 - 0x80)) 4 := by
  simp only [utf8Step]
  rw [if_neg (by omega), if_neg (by omega), if_neg (by omega),
    if_neg (by omega), if_pos h2]
  simp only [hc1, hc2, hc3, if_true]

theorem utf8Step_trunc1 (b : Nat) (h1 : 0xC2 ≤ b) (h2 : b < 0xF5) :
    utf8Step b [] = .err .unexpectedEnd 1 := by
  simp only [utf8Step]
  rw [if_neg (by omega), if_neg (by omega)]
  split_ifs <;> first | rfl | omega

theorem utf8Step_trunc2of3 (b b1 : Nat) (h1 : 0xE0 ≤ b) (h2 : b < 0xF0)
    (hc : cont1ok3 b b1 = true) :
    utf8Step b [b1] = .err .unexpectedEnd 2 := by
  simp only [utf8Step]
  rw [if_neg (by omega), if_neg (by omega), if_neg (by omega), if_pos h2]
  simp only [hc, if_true]

theorem utf8Step_trunc2of4 (b b1 : Nat) (h1 : 0xF0 ≤ b) (h2 : b < 0xF5)
    (hc : cont1ok4 b b1 = true) :
    utf8Step b [b1] = .err .unexpectedEnd 2 := by
  simp only [utf8Step]
  rw [if_neg (by omega), if_neg (by omega), if_neg (by omega),
    if_neg (by omega), if_pos h2]
  simp only [hc, if_true]

theorem utf8Step_trunc3of4 (b b1 b2 : Nat) (h1 : 0xF0 ≤ b) (h2 : b < 0xF5)
    (hc1 : cont1ok4 b b1 = true) (hc2 : isCont b2 = true) :
    utf8Step b [b1, b2] = .err .unexpectedEnd 3 := by
  simp only [utf8Step]
  rw [if_neg (by omega), if_neg (by omega), if_neg (by omega),
    if_neg (by omega), if_pos h2]
  simp only [hc1, hc2, if_true]

theorem isCont_encByte (x : Nat) : isCont (0x80 + x % 0x40) = true := by
  simp only [isCont, Bool.and_eq_true, decide_eq_true_eq]
  omega

theorem cont1ok3_enc (c : Nat) (h : ValidScalar c) (h8 : 0x800 ≤ c)
    (h16 : c < 0x10000) :
    cont1ok3 (0xE0 + c / 0x1000) (0x80 + c / 0x40 % 0x40) = true := by
  obtain ⟨hmax, hsur⟩ := h
  simp only [cont1ok3, isCont]
  split_ifs with he0 hed <;>
    simp only [Bool.and_eq_true, decide_eq_true_eq] <;> omega

theorem cont1ok4_enc (c : Nat) (h : ValidScalar c) (h16 : 0x10000 ≤ c) :
    cont1ok4 (0xF0 + c / 0x40000) (0x80 + c / 0x1000 % 0x40) = true := by
  obtain ⟨hmax, hsur⟩ := h
  simp only [cont1ok4, isCont]
  split_ifs with hf0 hf4 <;>
    simp only [Bool.and_eq_true, decide_eq_true_eq] <;> omega

/-- Stepping the decoder at the start of an encoded scalar value consumes
exactly its encoding and yields it back. -/
theorem utf8Step_encodeChar (c : Nat) (h : ValidScalar c) (rest : List Nat) :
    ∃ b tl, utf8EncodeChar c = b :: tl ∧
      utf8Step b (tl ++ rest) = .ok c (tl.length + 1) := by
  obtain ⟨hmax, hsur⟩ := h
  by_cases h80 : c < 0x80
  · refine ⟨c, [], by simp [utf8EncodeChar, h80], ?_⟩
    rw [utf8Step_ascii c h80]
    simp
  by_cases h800 : c < 0x800
  · refine ⟨0xC0 + c / 0x40, [0x80 + c % 0x40],
      by simp [utf8EncodeChar, h80, h800], ?_⟩
    have hstep := utf8Step_ok2 (0xC0 + c / 0x40) (0x80 + c % 0x40)
      (by omega) (by omega) (isCont_encByte c) rest
    rw [List.cons_append, List.nil_append, hstep]
    simp only [List.length_cons, List.length_nil, StepRes.ok.injEq]
    exact ⟨by omega, trivial⟩
  by_cases h16 : c < 0x10000
  · refine ⟨0xE0 + c / 0x1000, [0x80 + c / 0x40 % 0x40, 0x80 + c % 0x40],
      by simp [utf8EncodeChar, h80, h800, h16], ?_⟩
    have hstep := utf8Step_ok3 (0xE0 + c / 0x1000) (0x80 + c / 0x40 % 0x40)
      (0x80 + c % 0x40) (by omega) (by omega)
      (cont1ok3_enc c ⟨hmax, hsur⟩ (by omega) h16) (isCont_encByte c) rest
    rw [List.cons_append, List.cons_append, List.nil_append, hstep]
    simp only [List.length_cons, List.length_nil, StepRes.ok.injEq]
    exact ⟨by omega, trivial⟩
  · refine ⟨0xF0 + c / 0x40000,
      [0x80 + c / 0x1000 % 0x40, 0x80 + c / 0x40 % 0x40, 0x80 + c % 0x40],
      by simp [utf8EncodeChar, h80, h800, h16], ?_⟩
    have hstep := utf8Step_ok4 (0xF0 + c / 0x40000) (0x80 + c / 0x1000 % 0x40)
      (0x80 + c / 0x40 % 0x40) (0x80 + c % 0x40) (by omega) (by omega)
      (cont1ok4_enc c ⟨hmax, hsur⟩ (by omega)) (isCont_encByte (c / 0x40))
      (isCont_encByte c) rest
    rw [List.cons_append, List.cons_append, List.cons_append,
      List.nil_append, hstep]
    simp only [List.length_cons, List.length_nil, StepRes.ok.injEq]
    exact ⟨by omega, trivial⟩

/-- Decoding an encoded scalar value in front of arbitrary bytes consumes
exactly its encoding. -/
theorem decodeFrom_encodeChar (c : Nat) (h : ValidScalar c) (rest : List Nat)
    (pos : Nat) :
    decodeFrom (utf8EncodeChar c ++ rest) pos =
      (decodeFrom rest (pos + (utf8EncodeChar c).length)).map (c :: ·) := by
  obtain ⟨b, tl, henc, hstep⟩ := utf8Step_encodeChar c h rest
  rw [henc, List.cons_append, decodeFrom_cons]
  simp only [hstep, Nat.add_sub_cancel, List.drop_left, List.length_cons]

theorem decodeFrom_encode_append (cps : List Nat)
    (h : ∀ c ∈ cps, ValidScalar c) (rest : List Nat) (pos : Nat) :
    decodeFrom (utf8Encode cps ++ rest) pos =
      (decodeFrom rest (pos + (utf8Encode cps).length)).map (cps ++ ·) := by
  induction cps generalizing pos with
  | nil =>
    simp only [utf8Encode, List.nil_append, List.length_nil, Nat.add_zero]
    cases decodeFrom rest pos <;> simp [Except.map]
  | cons c cs ih =>
    rw [utf8Encode, List.append_assoc,
      decodeFrom_encodeChar c (h c (by simp)) _ pos,
      ih (fun x hx => h x (by simp [hx])), Nat.add_assoc]
    cases hrest : decodeFrom rest
        (pos + ((utf8EncodeChar c).length + (utf8Encode cs).length)) with
    | ok l => simp [Except.map, hrest, List.length_append]
    | error e => simp [Except.map, hrest, List.length_append]

theorem decodeFrom_encode (cps : List Nat) (h : ∀ c ∈ cps, ValidScalar c)
    (pos : Nat) : decodeFrom (utf8Encode cps) pos = .ok cps := by
  have hh := decodeFrom_encode_append cps h [] pos
  rw [List.append_nil] at hh
  rw [hh, decodeFrom_nil]
  simp [Except.map]

/-- A valid UTF-8 encoding decodes strictly to the code points it encodes. -/
theorem decodeUtf8_encode (cps : List Nat) (h : ∀ c ∈ cps, ValidScalar c) :
    decodeUtf8 (utf8Encode cps) = .ok cps :=
  decodeFrom_encode cps h 0

/-- A buffer beginning with a continuation byte fails immediately with an
"invalid start byte" error of span one. -/
theorem decodeFrom_contHead (b : Nat) (hb : isCont b = true) (bs : List Nat)
    (pos : Nat) :
    decodeFrom (b :: bs) pos = .error ⟨pos, pos + 1, .invalidStart⟩ := by
  simp only [isCont, Bool.and_eq_true, decide_eq_true_eq] at hb
  rw [decodeFrom_cons, utf8Step_contHead b (by omega) (by omega)]

/-- Every byte of an encoded scalar value after the first is a
continuation byte. -/
theorem encodeChar_drop_cont (c j : Nat) (hj : 0 < j)
    (hj2 : j < (utf8EncodeChar c).length) :
    ∃ b tl, (utf8EncodeChar c).drop j = b :: tl ∧ isCont b = true := by
  by_cases h80 : c < 0x80
  · exfalso; simp [utf8EncodeChar, h80] at hj2; omega
  by_cases h800 : c < 0x800
  · have hj1 : j = 1 := by simp [utf8EncodeChar, h80, h800] at hj2; omega
    subst hj1
    exact ⟨0x80 + c % 0x40, [], by simp [utf8EncodeChar, h80, h800],
      isCont_encByte c⟩
  by_cases h16 : c < 0x10000
  · have hj12 : j = 1 ∨ j = 2 := by
      simp [utf8EncodeChar, h80, h800, h16] at hj2; omega
    rcases hj12 with hj1 | hj1 <;> subst hj1
    · exact ⟨0x80 + c / 0x40 % 0x40, [0x80 + c % 0x40],
        by simp [utf8EncodeChar, h80, h800, h16], isCont_encByte (c / 0x40)⟩
    · exact ⟨0x80 + c % 0x40, [], by simp [utf8EncodeChar, h80, h800, h16],
        isCont_encByte c⟩
  · have hj13 : j = 1 ∨ j = 2 ∨ j = 3 := by
      simp [utf8EncodeChar, h80, h800, h16] at hj2; omega
    rcases hj13 with hj1 | hj1 | hj1 <;> subst hj1
    · exact ⟨0x80 + c / 0x1000 % 0x40, [0x80 + c / 0x40 % 0x40, 0x80 + c % 0x40],
        by simp [utf8EncodeChar, h80, h800, h16], isCont_encByte (c / 0x1000)⟩
    · exact ⟨0x80 + c / 0x40 % 0x40, [0x80 + c % 0x40],
        by simp [utf8EncodeChar, h80, h800, h16], isCont_encByte (c / 0x40)⟩
    · exact ⟨0x80 + c % 0x40, [], by simp [utf8EncodeChar, h80, h800, h16],
        isCont_encByte c⟩

/-- Decoding a strict nonempty prefix of an encoded scalar value fails with
"unexpected end of data" over the whole prefix. -/
theorem decodeFrom_encodeChar_take (c : Nat) (h : ValidScalar c) (k : Nat)
    (hk : 0 < k) (hk2 : k < (utf8EncodeChar c).length) (pos : Nat) :
    decodeFrom ((utf8EncodeChar c).take k) pos =
      .error ⟨pos, pos + k, .unexpectedEnd⟩ := by
  obtain ⟨hmax, hsur⟩ := h
  by_cases h80 : c < 0x80
  · exfalso; simp [utf8EncodeChar, h80] at hk2; omega
  by_cases h800 : c < 0x800
  · have hk1 : k = 1 := by simp [utf8EncodeChar, h80, h800] at hk2; omega
    subst hk1
    have htake : (utf8EncodeChar c).take 1 = [0xC0 + c / 0x40] := by
      simp [utf8EncodeChar, h80, h800]
    rw [htake, decodeFrom_cons, utf8Step_trunc1 _ (by omega) (by omega)]
  by_cases h16 : c < 0x10000
  · have hk12 : k = 1 ∨ k = 2 := by
      simp [utf8EncodeChar, h80, h800, h16] at hk2; omega
    rcases hk12 with hk1 | hk1 <;> subst hk1
    · have htake : (utf8EncodeChar c).take 1 = [0xE0 + c / 0x1000] := by
        simp [utf8EncodeChar, h80, h800, h16]
      rw [htake, decodeFrom_cons, utf8Step_trunc1 _ (by omega) (by omega)]
    · have htake : (utf8EncodeChar c).take 2 =
          [0xE0 + c / 0x1000, 0x80 + c / 0x40 % 0x40] := by
        simp [utf8EncodeChar, h80, h800, h16]
      rw [htake, decodeFrom_cons, utf8Step_trunc2of3 _ _ (by omega) (by omega)
        (cont1ok3_enc c ⟨hmax, hsur⟩ (by omega) h16)]
  · have hk13 : k = 1 ∨ k = 2 ∨ k = 3 := by
      simp [utf8EncodeChar, h80, h800, h16] at hk2; omega
    rcases hk13 with hk1 | hk1 | hk1 <;> subst hk1
    · have htake : (utf8EncodeChar c).take 1 = [0xF0 + c / 0x40000] := by
        simp [utf8EncodeChar, h80, h800, h16]
      rw [htake, decodeFrom_cons, utf8Step_trunc1 _ (by omega) (by omega)]
    · have htake : (utf8EncodeChar c).take 2 =
          [0xF0 + c / 0x40000, 0x80 + c / 0x1000 % 0x40] := by
        simp [utf8EncodeChar, h80, h800, h16]
      rw [htake, decodeFrom_cons, utf8Step_trunc2of4 _ _ (by omega) (by omega)
        (cont1ok4_enc c ⟨hmax, hsur⟩ (by omega))]
    · have htake : (utf8EncodeChar c).take 3 =
          [0xF0 + c / 0x40000, 0x80 + c / 0x1000 % 0x40,
           0x80 + c / 0x40 % 0x40] := by
        simp [utf8EncodeChar, h80, h800, h16]
      rw [htake, decodeFrom_cons, utf8Step_trunc3of4 _ _ _ (by omega) (by omega)
        (cont1ok4_enc c ⟨hmax, hsur⟩ (by omega)) (isCont_encByte (c / 0x40))]

/-- A valid encoding followed by a strict nonempty prefix of one more
encoded scalar fails with "unexpected end of data" whose span is exactly
the dangling prefix, ending at the end of the buffer. -/
theorem decodeFrom_encode_take (cps : List Nat) (h : ∀ x ∈ cps, ValidScalar x)
    (c : Nat) (hc : ValidScalar c) (k : Nat) (hk : 0 < k)
    (hk2 : k < (utf8EncodeChar c).length) (pos : Nat) :
    decodeFrom (utf8Encode cps ++ (utf8EncodeChar c).take k) pos =
      .error ⟨pos + (utf8Encode cps).length,
        pos + (utf8Encode cps).length + k, .unexpectedEnd⟩ := by
  rw [decodeFrom_encode_append cps h _ pos,
    decodeFrom_encodeChar_take c hc k hk hk2]
  rfl

theorem utf8Encode_length_pos (cps : List Nat) (h : cps ≠ []) :
    0 < (utf8Encode cps).length := by
  cases cps with
  | nil => simp at h
  | cons c cs =>
    simp only [utf8Encode, List.length_append]
    have := utf8EncodeChar_length_pos c
    omega

/-!
`shrink_to_valid_string` (sync.py lines 216–227, identically
`UrlBlob`'s loop): repeatedly strict-decode the fragment; on an error at
the start drop `fragment[e.end:]`, on an error at the end keep
`fragment[:e.start]`, on an interior error decode the current fragment
with `errors="replace"`.  The loop is fuelled; every iteration strictly
shrinks the fragment, so `length + 1` fuel always suffices
(`shrinkLoopF_fuel` below), which is the termination argument for the
source's `while True`. -/
def shrinkLoopF : Nat → List Nat → List Nat
  | 0, frag => decodeReplace frag
  | fuel + 1, frag =>
    match decodeUtf8 frag with
    | .ok cps => cps
    | .error e =>
      if e.start = 0 then shrinkLoopF fuel (frag.drop e.stop)
      else if e.stop = frag.length then shrinkLoopF fuel (frag.take e.start)
      else decodeReplace frag

/-- The `while True` loop of `shrink_to_valid_string`, acting on the
fetched fragment. -/
def shrinkLoop (frag : List Nat) : List Nat :=
  shrinkLoopF (frag.length + 1) frag

theorem shrinkLoopF_fuel : ∀ (f g : Nat) (frag : List Nat),
    frag.length < f → frag.length < g →
    shrinkLoopF f frag = shrinkLoopF g frag := by
  intro f
  induction f with
  | zero => intro g frag hf; omega
  | succ f ih =>
    intro g frag hf hg
    cases g with
    | zero => omega
    | succ g' =>
      simp only [shrinkLoopF]
      cases hd : decodeUtf8 frag with
      | ok cps => rfl
      | error e =>
        have hb := decodeUtf8_err_bounds frag e hd
        dsimp only
        split_ifs with h0 hend
        · exact ih g' (frag.drop e.stop) (by simp [List.length_drop]; omega)
            (by simp [List.length_drop]; omega)
        · exact ih g' (frag.take e.start) (by simp [List.length_take]; omega)
            (by simp [List.length_take]; omega)
        · rfl

/-- One unfolding of the shrink loop, phrased through the decode result the
source branches on. -/
theorem shrinkLoop_eq (frag : List Nat) :
    shrinkLoop frag =
      match decodeUtf8 frag with
      | .ok cps => cps
      | .error e =>
        if e.start = 0 then shrinkLoop (frag.drop e.stop)
        else if e.stop = frag.length then shrinkLoop (frag.take e.start)
        else decodeReplace frag := by
  show shrinkLoopF (frag.length + 1) frag = _
  simp only [shrinkLoopF]
  cases hd : decodeUtf8 frag with
  | ok cps => rfl
  | error e =>
    have hb := decodeUtf8_err_bounds frag e hd
    dsimp only
    split_ifs with h0 hend
    · exact shrinkLoopF_fuel _ _ _ (by simp only [List.length_drop]; omega)
        (Nat.lt_succ_self _)
    · exact shrinkLoopF_fuel _ _ _ (by simp only [List.length_take]; omega)
        (Nat.lt_succ_self _)
    · rfl

theorem shrinkLoop_nil : shrinkLoop [] = [] := rfl

/-- The shrink loop is the identity (up to decoding) on valid encodings. -/
theorem shrinkLoop_encode (cps : List Nat) (h : ∀ c ∈ cps, ValidScalar c) :
    shrinkLoop (utf8Encode cps) = cps := by
  rw [shrinkLoop_eq, decodeUtf8_encode cps h]

/-- A leading continuation byte is dropped by one shrink iteration. -/
theorem shrinkLoop_contHead (b : Nat) (hb : isCont b = true) (bs : List Nat) :
    shrinkLoop (b :: bs) = shrinkLoop bs := by
  rw [shrinkLoop_eq]
  have hd : decodeUtf8 (b :: bs) = .error ⟨0, 1, .invalidStart⟩ :=
    decodeFrom_contHead b hb bs 0
  rw [hd]
  simp

/-- The shrink loop eats, one at a time, the dangling continuation bytes of
a scalar value whose encoding was cut on the left. -/
theorem shrinkLoop_dropEnc : ∀ (m c j : Nat) (X : List Nat),
    (utf8EncodeChar c).length - j ≤ m → 0 < j →
    shrinkLoop ((utf8EncodeChar c).drop j ++ X) = shrinkLoop X := by
  intro m
  induction m with
  | zero =>
    intro c j X hm hj
    rw [List.drop_eq_nil_of_le (by omega), List.nil_append]
  | succ m ih =>
    intro c j X hm hj
    by_cases hlen : (utf8EncodeChar c).length ≤ j
    · rw [List.drop_eq_nil_of_le hlen, List.nil_append]
    · obtain ⟨b, tl, hdrop, hcont⟩ := encodeChar_drop_cont c j hj (by omega)
      have htl : tl = (utf8EncodeChar c).drop (j + 1) := by
        have hh : ((utf8EncodeChar c).drop j).drop 1 =
            (utf8EncodeChar c).drop (j + 1) := by rw [List.drop_drop]
        rw [hdrop] at hh
        simpa using hh
      rw [hdrop, List.cons_append, shrinkLoop_contHead b hcont, htl,
        ih c (j + 1) X (by omega) (by omega)]

/-- A valid encoding with a dangling strict prefix of one further scalar
value shrinks to exactly the fully encoded code points. -/
theorem shrinkLoop_encode_take (cps : List Nat) (h : ∀ x ∈ cps, ValidScalar x)
    (c : Nat) (hc : ValidScalar c) (k : Nat) (hk : 0 < k)
    (hk2 : k < (utf8EncodeChar c).length) :
    shrinkLoop (utf8Encode cps ++ (utf8EncodeChar c).take k) = cps := by
  rw [shrinkLoop_eq]
  have hd : decodeUtf8 (utf8Encode cps ++ (utf8EncodeChar c).take k) =
      .error ⟨(utf8Encode cps).length, (utf8Encode cps).length + k,
        .unexpectedEnd⟩ := by
    have := decodeFrom_encode_take cps h c hc k hk hk2 0
    simpa using this
  rw [hd]
  dsimp only
  have hlentake : ((utf8EncodeChar c).take k).length = k := by
    simp only [List.length_take]; omega
  by_cases hnil : cps = []
  · subst hnil
    rw [if_pos (by simp [utf8Encode])]
    simp only [utf8Encode, List.nil_append, List.length_nil, Nat.zero_add]
    rw [List.drop_eq_nil_of_le (by omega), shrinkLoop_nil]
  · have hpos := utf8Encode_length_pos cps hnil
    rw [if_neg (by omega),
      if_pos (by simp only [List.length_append, hlentake])]
    rw [List.take_left, shrinkLoop_encode cps h]

theorem shrinkLoop_contList : ∀ (l : List Nat),
    (∀ b ∈ l, isCont b = true) → shrinkLoop l = [] := by
  intro l
  induction l with
  | nil => intro _; exact shrinkLoop_nil
  | cons b bs ih =>
    intro h
    rw [shrinkLoop_contHead b (h b (by simp)), ih (fun x hx => h x (by simp [hx]))]

theorem encodeChar_mem_drop_cont : ∀ (m c j : Nat), 0 < j →
    (utf8EncodeChar c).length - j ≤ m →
    ∀ b ∈ (utf8EncodeChar c).drop j, isCont b = true := by
  intro m
  induction m with
  | zero =>
    intro c j hj hm b hb
    rw [List.drop_eq_nil_of_le (by omega)] at hb
    simp at hb
  | succ m ih =>
    intro c j hj hm b hb
    by_cases hlen : (utf8EncodeChar c).length ≤ j
    · rw [List.drop_eq_nil_of_le hlen] at hb; simp at hb
    · obtain ⟨b0, tl, hdrop, hcont⟩ := encodeChar_drop_cont c j hj (by omega)
      have htl : tl = (utf8EncodeChar c).drop (j + 1) := by
        have hh : ((utf8EncodeChar c).drop j).drop 1 =
            (utf8EncodeChar c).drop (j + 1) := by rw [List.drop_drop]
        rw [hdrop] at hh
        simpa using hh
      rw [hdrop] at hb
      rcases List.mem_cons.mp hb with hb0 | hbtl
      · subst hb0; exact hcont
      · exact ih c (j + 1) (by omega) (by omega) b (htl ▸ hbtl)

/-- Any byte offset into an encoded code-point sequence is past the end, on
a code-point boundary, or strictly inside the encoding of one code point. -/
theorem encode_split : ∀ (cps : List Nat) (i : Nat),
    ((utf8Encode cps).length ≤ i) ∨
    (∃ pre post, cps = pre ++ post ∧ i = (utf8Encode pre).length) ∨
    (∃ pre c post, cps = pre ++ c :: post ∧ (utf8Encode pre).length < i ∧
      i < (utf8Encode pre).length + (utf8EncodeChar c).length) := by
  intro cps
  induction cps with
  | nil => intro i; left; simp [utf8Encode]
  | cons c cs ih =>
    intro i
    by_cases hiL : i < (utf8EncodeChar c).length
    · by_cases hi0 : i = 0
      · right; left
        exact ⟨[], c :: cs, rfl, by simp [utf8Encode, hi0]⟩
      · right; right
        exact ⟨[], c, cs, rfl, by simp [utf8Encode]; omega,
          by simp [utf8Encode]; omega⟩
    · rcases ih (i - (utf8EncodeChar c).length) with h1 | h2 | h3
      · left
        simp only [utf8Encode, List.length_append]
        omega
      · obtain ⟨pre, post, hsplit, hi⟩ := h2
        right; left
        refine ⟨c :: pre, post, by simp [hsplit], ?_⟩
        simp only [utf8Encode, List.length_append]
        omega
      · obtain ⟨pre, c', post, hsplit, hlo, hhi⟩ := h3
        right; right
        refine ⟨c :: pre, c', post, by simp [hsplit], ?_, ?_⟩ <;>
          (simp only [utf8Encode, List.length_append]; omega)

/-- Central property of `shrink`: splitting the valid encoding of `cps` at
any byte offset `i` and shrinking the two halves reproduces `cps` with at
worst the single code point straddling the split removed; nothing else is
lost or replaced. -/
theorem shrink_reconstruct (cps : List Nat) (h : ∀ c ∈ cps, ValidScalar c)
    (i : Nat) :
    ∃ pre mid post, cps = pre ++ mid ++ post ∧ mid.length ≤ 1 ∧
      (utf8Encode pre).length ≤ i ∧
      (mid = [] ∨ i < (utf8Encode pre).length + (utf8Encode mid).length) ∧
      shrinkLoop ((utf8Encode cps).take i) ++
        shrinkLoop ((utf8Encode cps).drop i) = pre ++ post := by
  rcases encode_split cps i with h1 | h2 | h3
  · refine ⟨cps, [], [], by simp, by simp, by simpa using h1, Or.inl rfl, ?_⟩
    rw [List.take_of_length_le h1, List.drop_eq_nil_of_le h1,
      shrinkLoop_encode cps h, shrinkLoop_nil]
  · obtain ⟨pre, post, hsplit, hi⟩ := h2
    subst hsplit
    have hpre : ∀ x ∈ pre, ValidScalar x := fun x hx => h x (by simp [hx])
    have hpost : ∀ x ∈ post, ValidScalar x := fun x hx => h x (by simp [hx])
    refine ⟨pre, [], post, by simp, by simp, by omega, Or.inl rfl, ?_⟩
    rw [utf8Encode_append, hi, List.take_left, List.drop_left,
      shrinkLoop_encode pre hpre, shrinkLoop_encode post hpost]
  · obtain ⟨pre, c, post, hsplit, hlo, hhi⟩ := h3
    subst hsplit
    have hpre : ∀ x ∈ pre, ValidScalar x := fun x hx => h x (by simp [hx])
    have hc : ValidScalar c := h c (by simp)
    have hpost : ∀ x ∈ post, ValidScalar x := fun x hx => h x (by simp [hx])
    obtain ⟨k, hik⟩ : ∃ k, i = (utf8Encode pre).length + k :=
      ⟨i - (utf8Encode pre).length, by omega⟩
    subst hik
    have hkpos : 0 < k := by omega
    have hkL : k < (utf8EncodeChar c).length := by omega
    have henc : utf8Encode (pre ++ c :: post) =
        utf8Encode pre ++ (utf8EncodeChar c ++ utf8Encode post) := by
      rw [utf8Encode_append]; rfl
    have htake : (utf8Encode (pre ++ c :: post)).take
        ((utf8Encode pre).length + k) =
        utf8Encode pre ++ (utf8EncodeChar c).take k := by
      rw [henc, List.take_append_eq_append_take,
        List.take_of_length_le (by omega), Nat.add_sub_cancel_left,
        List.take_append_eq_append_take]
      have hz : k - (utf8EncodeChar c).length = 0 := by omega
      rw [hz, List.take_zero, List.append_nil]
    have hdrop : (utf8Encode (pre ++ c :: post)).drop
        ((utf8Encode pre).length + k) =
        (utf8EncodeChar c).drop k ++ utf8Encode post := by
      rw [henc, List.drop_append_eq_append_drop,
        List.drop_eq_nil_of_le (by omega), List.nil_append,
        Nat.add_sub_cancel_left, List.drop_append_eq_append_drop]
      have hz : k - (utf8EncodeChar c).length = 0 := by omega
      rw [hz, List.drop_zero]
    refine ⟨pre, [c], post, by simp, by simp, by omega,
      Or.inr (by simp only [utf8Encode, List.length_append, List.length_nil]; omega), ?_⟩
    rw [htake, hdrop, shrinkLoop_encode_take pre hpre c hc k hkpos hkL,
      shrinkLoop_dropEnc 4 c k (utf8Encode post)
        (by have := utf8EncodeChar_length_le c; omega) hkpos,
      shrinkLoop_encode post hpost]

/-- An HTTP ranged GET `bytes=start-end` (inclusive `end`, clamped by the
server at the blob's boundaries); `stop? = none` is the open-ended form
`bytes=start-`. -/
def httpGet (blob : List Nat) (start : Nat) (stop? : Option Nat) : List Nat :=
  match stop? with
  | none => blob.drop start
  | some e => (blob.take (e + 1)).drop start

/-- Result of `grow_to_valid_string` together with how many one-byte
extension fetches were issued on each edge. -/
structure GrowOut where
  result : List Nat
  leftFetches : Nat
  rightFetches : Nat
deriving DecidableEq, Repr

/-- The `while True` loop of `grow_to_valid_string`
(sync.py lines 135–179): `l`/`r` are `left_extension`/`right_extension`,
`orig` is `original_fragment`, `rs`/`re` are `range_start`/`range_end`.
Fuelled: every iteration that continues increments `l` or `r`, each capped
at 4, so fuel 9 always suffices (`growLoopF_fuel`), which is the
termination argument for the source's `while True`. -/
def growLoopF : Nat → List Nat → Option Nat → Option Nat → List Nat →
    List Nat → Nat → Nat → GrowOut
  | 0, _, _, _, orig, _, _, _ => ⟨decodeReplace orig, 0, 0⟩
  | fuel + 1, blob, rs, re, orig, frag, l, r =>
    if 4 ≤ l ∨ 4 ≤ r then ⟨decodeReplace orig, 0, 0⟩
    else
      match decodeUtf8 frag with
      | .ok cps => ⟨cps, 0, 0⟩
      | .error e =>
        if e.start = 0 ∧ e.reason = .invalidStart then
          match rs with
          | none => ⟨decodeReplace orig, 0, 0⟩
          | some s =>
            if s < l + 1 ∨ 4 ≤ l + 1 then ⟨decodeReplace orig, 0, 0⟩
            else
              let out := growLoopF fuel blob rs re orig
                (httpGet blob (s - (l + 1)) (some (s - (l + 1))) ++ frag)
                (l + 1) r
              ⟨out.result, out.leftFetches + 1, out.rightFetches⟩
        else if e.stop = frag.length ∧ e.reason = .unexpectedEnd then
          match re with
          | none => ⟨decodeReplace orig, 0, 0⟩
          | some en =>
            if blob.length ≤ en + (r + 1) + 1 ∨ 4 ≤ r + 1 then
              ⟨decodeReplace orig, 0, 0⟩
            else
              let out := growLoopF fuel blob rs re orig
                (frag ++ httpGet blob (en + (r + 1)) (some (en + (r + 1))))
                l (r + 1)
              ⟨out.result, out.leftFetches, out.rightFetches + 1⟩
        else ⟨decodeReplace orig, 0, 0⟩

/-- The grow loop with its sufficient fuel. -/
def growLoop (blob : List Nat) (rs re : Option Nat) (orig frag : List Nat)
    (l r : Nat) : GrowOut :=
  growLoopF 9 blob rs re orig frag l r

theorem growLoopF_fuel : ∀ (f g : Nat) (blob : List Nat) (rs re : Option Nat)
    (orig frag : List Nat) (l r : Nat), 8 - l - r ≤ f → 8 - l - r ≤ g →
    growLoopF f blob rs re orig frag l r = growLoopF g blob rs re orig frag l r := by
  intro f
  induction f with
  | zero =>
    intro g blob rs re orig frag l r hf hg
    have hguard : 4 ≤ l ∨ 4 ≤ r := by omega
    cases g with
    | zero => rfl
    | succ g' =>
      simp only [growLoopF]
      rw [if_pos hguard]
  | succ f ih =>
    intro g blob rs re orig frag l r hf hg
    by_cases hguard : 4 ≤ l ∨ 4 ≤ r
    · cases g with
      | zero => simp only [growLoopF]; rw [if_pos hguard]
      | succ g' =>
        simp only [growLoopF]
        rw [if_pos hguard, if_pos hguard]
    · cases g with
      | zero => omega
      | succ g' =>
        simp only [growLoopF]
        rw [if_neg hguard, if_neg hguard]
        cases hd : decodeUtf8 frag with
        | ok cps => rfl
        | error e =>
          dsimp only
          by_cases hleft : e.start = 0 ∧ e.reason = .invalidStart
          · rw [if_pos hleft, if_pos hleft]
            cases rs with
            | none => rfl
            | some s =>
              dsimp only
              by_cases habort : s < l + 1 ∨ 4 ≤ l + 1
              · rw [if_pos habort, if_pos habort]
              · rw [if_neg habort, if_neg habort]
                rw [ih g' blob _ re orig _ (l + 1) r (by omega) (by omega)]
          · rw [if_neg hleft, if_neg hleft]
            by_cases hright : e.stop = frag.length ∧ e.reason = .unexpectedEnd
            · rw [if_pos hright, if_pos hright]
              cases re with
              | none => rfl
              | some en =>
                dsimp only
                by_cases habort : blob.length ≤ en + (r + 1) + 1 ∨ 4 ≤ r + 1
                · rw [if_pos habort, if_pos habort]
                · rw [if_neg habort, if_neg habort]
                  rw [ih g' blob rs _ orig _ l (r + 1) (by omega) (by omega)]
            · rw [if_neg hright, if_neg hright]

theorem growLoopF_succ (f : Nat) (blob : List Nat) (rs re : Option Nat)
    (orig frag : List Nat) (l r : Nat) :
    growLoopF (f + 1) blob rs re orig frag l r =
      if 4 ≤ l ∨ 4 ≤ r then ⟨decodeReplace orig, 0, 0⟩
      else
        match decodeUtf8 frag with
        | .ok cps => ⟨cps, 0, 0⟩
        | .error e =>
          if e.start = 0 ∧ e.reason = .invalidStart then
            match rs with
            | none => ⟨decodeReplace orig, 0, 0⟩
            | some s =>
              if s < l + 1 ∨ 4 ≤ l + 1 then ⟨decodeReplace orig, 0, 0⟩
              else
                let out := growLoopF f blob rs re orig
                  (httpGet blob (s - (l + 1)) (some (s - (l + 1))) ++ frag)
                  (l + 1) r
                ⟨out.result, out.leftFetches + 1, out.rightFetches⟩
          else if e.stop = frag.length ∧ e.reason = .unexpectedEnd then
            match re with
            | none => ⟨decodeReplace orig, 0, 0⟩
            | some en =>
              if blob.length ≤ en + (r + 1) + 1 ∨ 4 ≤ r + 1 then
                ⟨decodeReplace orig, 0, 0⟩
              else
                let out := growLoopF f blob rs re orig
                  (frag ++ httpGet blob (en + (r + 1)) (some (en + (r + 1))))
                  l (r + 1)
                ⟨out.result, out.leftFetches, out.rightFetches + 1⟩
          else ⟨decodeReplace orig, 0, 0⟩ := by
  simp only [growLoopF]

/-- One unfolding of the grow loop, phrased through the decode result and
abort checks the source performs. -/
theorem growLoop_eq (blob : List Nat) (rs re : Option Nat)
    (orig frag : List Nat) (l r : Nat) :
    growLoop blob rs re orig frag l r =
      if 4 ≤ l ∨ 4 ≤ r then ⟨decodeReplace orig, 0, 0⟩
      else
        match decodeUtf8 frag with
        | .ok cps => ⟨cps, 0, 0⟩
        | .error e =>
          if e.start = 0 ∧ e.reason = .invalidStart then
            match rs with
            | none => ⟨decodeReplace orig, 0, 0⟩
            | some s =>
              if s < l + 1 ∨ 4 ≤ l + 1 then ⟨decodeReplace orig, 0, 0⟩
              else
                let out := growLoop blob rs re orig
                  (httpGet blob (s - (l + 1)) (some (s - (l + 1))) ++ frag)
                  (l + 1) r
                ⟨out.result, out.leftFetches + 1, out.rightFetches⟩
          else if e.stop = frag.length ∧ e.reason = .unexpectedEnd then
            match re with
            | none => ⟨decodeReplace orig, 0, 0⟩
            | some en =>
              if blob.length ≤ en + (r + 1) + 1 ∨ 4 ≤ r + 1 then
                ⟨decodeReplace orig, 0, 0⟩
              else
                let out := growLoop blob rs re orig
                  (frag ++ httpGet blob (en + (r + 1)) (some (en + (r + 1))))
                  l (r + 1)
                ⟨out.result, out.leftFetches, out.rightFetches + 1⟩
          else ⟨decodeReplace orig, 0, 0⟩ := by
  show growLoopF 9 blob rs re orig frag l r = _
  rw [show (9 : Nat) = 8 + 1 from rfl, growLoopF_succ]
  by_cases hguard : 4 ≤ l ∨ 4 ≤ r
  · rw [if_pos hguard, if_pos hguard]
  · rw [if_neg hguard, if_neg hguard]
    cases hd : decodeUtf8 frag with
    | ok cps => rfl
    | error e =>
      dsimp only
      by_cases hleft : e.start = 0 ∧ e.reason = .invalidStart
      · rw [if_pos hleft, if_pos hleft]
        cases rs with
        | none => rfl
        | some s =>
          dsimp only
          by_cases habort : s < l + 1 ∨ 4 ≤ l + 1
          · rw [if_pos habort, if_pos habort]
          · rw [if_neg habort, if_neg habort]
            rw [growLoopF_fuel 8 9 blob _ re orig _ (l + 1) r (by omega)
              (by omega)]
            rfl
      · rw [if_neg hleft, if_neg hleft]
        by_cases hright : e.stop = frag.length ∧ e.reason = .unexpectedEnd
        · rw [if_pos hright, if_pos hright]
          cases re with
          | none => rfl
          | some en =>
            dsimp only
            by_cases habort : blob.length ≤ en + (r + 1) + 1 ∨ 4 ≤ r + 1
            · rw [if_pos habort, if_pos habort]
            · rw [if_neg habort, if_neg habort]
              rw [growLoopF_fuel 8 9 blob rs _ orig _ l (r + 1) (by omega)
                (by omega)]
              rfl
        · rw [if_neg hright, if_neg hright]

/-- A Python `range(start, stop)` object (both fields are always plain
integers on a real range object). -/
structure PyRange where
  start : Nat
  stop : Nat
deriving DecidableEq, Repr

/-- `grow_to_valid_string(byte_range, start, end)` of `SyncUrlBlob`
(identically `UrlBlob.get_valid_string`): with no range at all, fetch the
whole blob and decode with lossy replacement; otherwise convert
`byte_range` to inclusive `range_start`/`range_end` (ignoring `start`/`end`
when `byte_range` is given), fetch the fragment, and run the extension
loop. -/
def grow_to_valid_string (blob : List Nat) (byte_range : Option PyRange)
    (start? end? : Option Nat) : GrowOut :=
  if byte_range = none ∧ start? = none ∧ end? = none then
    ⟨decodeReplace blob, 0, 0⟩
  else
    let range_start : Option Nat :=
      match byte_range with
      | some rg => some rg.start
      | none => start?
    let range_end : Option Nat :=
      match byte_range with
      | some rg => some (rg.stop - 1)
      | none => end?
    let fragment := httpGet blob (range_start.getD 0) range_end
    growLoop blob range_start range_end fragment fragment 0 0

/-- Result of `shrink_to_valid_string` together with the number of ranged
GETs issued (the loop itself performs none). -/
structure ShrinkOut where
  result : List Nat
  fetches : Nat
deriving DecidableEq, Repr

/-- `shrink_to_valid_string(byte_range, start, end)` of `SyncUrlBlob`:
fetch once, then run the pure shrink loop. -/
def shrink_to_valid_string (blob : List Nat) (byte_range : Option PyRange)
    (start? end? : Option Nat) : ShrinkOut :=
  if byte_range = none ∧ start? = none ∧ end? = none then
    ⟨decodeReplace blob, 1⟩
  else
    let range_start : Option Nat :=
      match byte_range with
      | some rg => some rg.start
      | none => start?
    let range_end : Option Nat :=
      match byte_range with
      | some rg => some (rg.stop - 1)
      | none => end?
    ⟨shrinkLoop (httpGet blob (range_start.getD 0) range_end), 1⟩

theorem httpGet_single (blob : List Nat) (p : Nat) (h : p < blob.length) :
    httpGet blob p (some p) = [blob[p]] := by
  show (blob.take (p + 1)).drop p = [blob[p]]
  have h1 : p < (blob.take (p + 1)).length := by
    simp only [List.length_take]; omega
  rw [List.drop_eq_getElem_cons h1]
  simp [List.getElem_take, List.drop_eq_nil_of_le, List.length_take]

/-- Every result of the grow loop is either the strict decode of some
fragment or the lossy decode of the original fragment `orig`; in
particular every abort path yields `decodeReplace orig`, independent of the
extension bytes accumulated so far. -/
theorem growLoopF_result_cases : ∀ (f : Nat) (blob : List Nat)
    (rs re : Option Nat) (orig frag : List Nat) (l r : Nat),
    (growLoopF f blob rs re orig frag l r).result = decodeReplace orig ∨
    ∃ frag2, decodeUtf8 frag2 =
      .ok ((growLoopF f blob rs re orig frag l r).result) := by
  intro f
  induction f with
  | zero => intro blob rs re orig frag l r; left; rfl
  | succ f ih =>
    intro blob rs re orig frag l r
    rw [growLoopF_succ]
    by_cases hguard : 4 ≤ l ∨ 4 ≤ r
    · rw [if_pos hguard]; left; rfl
    · rw [if_neg hguard]
      cases hd : decodeUtf8 frag with
      | ok cps => right; exact ⟨frag, hd⟩
      | error e =>
        dsimp only
        by_cases hleft : e.start = 0 ∧ e.reason = .invalidStart
        · rw [if_pos hleft]
          cases rs with
          | none => left; rfl
          | some s =>
            dsimp only
            by_cases habort : s < l + 1 ∨ 4 ≤ l + 1
            · rw [if_pos habort]; left; rfl
            · rw [if_neg habort]
              exact ih blob (some s) re orig _ (l + 1) r
        · rw [if_neg hleft]
          by_cases hright : e.stop = frag.length ∧ e.reason = .unexpectedEnd
          · rw [if_pos hright]
            cases re with
            | none => left; rfl
            | some en =>
              dsimp only
              by_cases habort : blob.length ≤ en + (r + 1) + 1 ∨ 4 ≤ r + 1
              · rw [if_pos habort]; left; rfl
              · rw [if_neg habort]
                exact ih blob rs (some en) orig _ l (r + 1)
          · rw [if_neg hright]; left; rfl

/-- The grow loop issues at most `3 - l` further one-byte fetches on the
left edge and `3 - r` on the right edge. -/
theorem growLoopF_fetch_bounds : ∀ (f : Nat) (blob : List Nat)
    (rs re : Option Nat) (orig frag : List Nat) (l r : Nat),
    (growLoopF f blob rs re orig frag l r).leftFetches ≤ 3 - l ∧
    (growLoopF f blob rs re orig frag l r).rightFetches ≤ 3 - r := by
  intro f
  induction f with
  | zero => intro blob rs re orig frag l r; exact ⟨Nat.zero_le _, Nat.zero_le _⟩
  | succ f ih =>
    intro blob rs re orig frag l r
    rw [growLoopF_succ]
    by_cases hguard : 4 ≤ l ∨ 4 ≤ r
    · rw [if_pos hguard]; exact ⟨Nat.zero_le _, Nat.zero_le _⟩
    · rw [if_neg hguard]
      cases hd : decodeUtf8 frag with
      | ok cps => exact ⟨Nat.zero_le _, Nat.zero_le _⟩
      | error e =>
        dsimp only
        by_cases hleft : e.start = 0 ∧ e.reason = .invalidStart
        · rw [if_pos hleft]
          cases rs with
          | none => exact ⟨Nat.zero_le _, Nat.zero_le _⟩
          | some s =>
            dsimp only
            by_cases habort : s < l + 1 ∨ 4 ≤ l + 1
            · rw [if_pos habort]; exact ⟨Nat.zero_le _, Nat.zero_le _⟩
            · rw [if_neg habort]
              have hb := ih blob (some s) re orig
                (httpGet blob (s - (l + 1)) (some (s - (l + 1))) ++ frag)
                (l + 1) r
              exact ⟨by dsimp only; omega, by dsimp only; omega⟩
        · rw [if_neg hleft]
          by_cases hright : e.stop = frag.length ∧ e.reason = .unexpectedEnd
          · rw [if_pos hright]
            cases re with
            | none => exact ⟨Nat.zero_le _, Nat.zero_le _⟩
            | some en =>
              dsimp only
              by_cases habort : blob.length ≤ en + (r + 1) + 1 ∨ 4 ≤ r + 1
              · rw [if_pos habort]; exact ⟨Nat.zero_le _, Nat.zero_le _⟩
              · rw [if_neg habort]
                have hb := ih blob rs (some en) orig
                  (frag ++ httpGet blob (en + (r + 1)) (some (en + (r + 1))))
                  l (r + 1)
                exact ⟨by dsimp only; omega, by dsimp only; omega⟩
          · rw [if_neg hright]; exact ⟨Nat.zero_le _, Nat.zero_le _⟩

theorem getElem_LMR (L M R : List Nat) (i : Nat) (hi : i < M.length)
    (h : L.length + i < (L ++ M ++ R).length) :
    (L ++ M ++ R)[L.length + i] = M[i] := by
  have hb : L.length + i < (L ++ M).length := by simp; omega
  rw [List.getElem_append_left hb, List.getElem_append_right (by omega)]
  congr 1
  omega

theorem encodeChar_getElem_cont (c j : Nat) (hj : 0 < j)
    (hjc : j < (utf8EncodeChar c).length) :
    isCont ((utf8EncodeChar c)[j]) = true := by
  obtain ⟨b, tl, hdropj, hcont⟩ := encodeChar_drop_cont c j hj hjc
  rw [List.drop_eq_getElem_cons hjc] at hdropj
  injection hdropj with h1 _
  rw [h1]
  exact hcont

/-- Core exactness of the grow loop.  With `blob = L ++ M ++ R`,
`M = utf8Encode mid`, an inclusive byte range `[s, en]` whose lower edge
lies inside the encoding of the first code point of `mid` and whose upper
edge lies inside the encoding of its last one, and at least four blob
bytes beyond `en`, the loop converges to exactly `mid` from every
intermediate state `frag = (M.take t).drop j` reachable by its
extensions. -/
theorem growLoop_exact_aux : ∀ (n : Nat) (blob L M R mid : List Nat)
    (c1 clast s en : Nat) (orig : List Nat) (j t l r : Nat),
    blob = L ++ M ++ R →
    M = utf8Encode mid →
    (∀ c ∈ mid, ValidScalar c) →
    mid.head? = some c1 →
    mid.getLast? = some clast →
    L.length ≤ s →
    s < L.length + (utf8EncodeChar c1).length →
    L.length + M.length ≤ en + (utf8EncodeChar clast).length →
    en < L.length + M.length →
    s ≤ en →
    en + 5 ≤ blob.length →
    j ≤ s - L.length →
    en + 1 ≤ L.length + t →
    t ≤ M.length →
    l = s - L.length - j →
    r = L.length + t - (en + 1) →
    j + (M.length - t) ≤ n →
    (growLoop blob (some s) (some en) orig ((M.take t).drop j) l r).result
      = mid := by
  intro n
  induction n with
  | zero =>
    intro blob L M R mid c1 clast s en orig j t l r
    intro hblob hM hvalid hhead hlast hLs hsc1 hencl hen hsen hblen
    intro hj ht1 ht2 hl hr hn
    have hlc1 := utf8EncodeChar_length_le c1
    have hlcl := utf8EncodeChar_length_le clast
    have hj0 : j = 0 := by omega
    have ht0 : t = M.length := by omega
    subst hj0; subst ht0; subst hl; subst hr
    rw [List.take_length, List.drop_zero, growLoop_eq,
      if_neg (by omega : ¬(4 ≤ s - L.length - 0 ∨
        4 ≤ L.length + M.length - (en + 1))), hM,
      decodeUtf8_encode mid hvalid]
  | succ n ih =>
    intro blob L M R mid c1 clast s en orig j t l r
    intro hblob hM hvalid hhead hlast hLs hsc1 hencl hen hsen hblen
    intro hj ht1 ht2 hl hr hn
    have hlc1 := utf8EncodeChar_length_le c1
    have hlcl := utf8EncodeChar_length_le clast
    obtain ⟨midtl, hmid⟩ : ∃ midtl, mid = c1 :: midtl := by
      cases mid with
      | nil => simp at hhead
      | cons x xs => simp at hhead; exact ⟨xs, by rw [hhead]⟩
    have hMc1 : M = utf8EncodeChar c1 ++ utf8Encode midtl := by
      rw [hM, hmid]; rfl
    have hlenc1M : (utf8EncodeChar c1).length ≤ M.length := by
      rw [hMc1]; simp [List.length_append]
    have hblob_len : blob.length = L.length + M.length + R.length := by
      rw [hblob]; simp [List.length_append]; omega
    have hguard : ¬(4 ≤ l ∨ 4 ≤ r) := by omega
    by_cases hjpos : 0 < j
    · -- left phase: the fragment begins with a continuation byte of c1
      have hjc1 : j < (utf8EncodeChar c1).length := by omega
      have hjM : j < M.length := by omega
      have hjt : j < t := by omega
      have hjtake : j < (M.take t).length := by
        simp only [List.length_take]; omega
      have hfrag_cons : (M.take t).drop j =
          (M.take t)[j] :: (M.take t).drop (j + 1) :=
        List.drop_eq_getElem_cons hjtake
      have hgetj : (M.take t)[j] = M[j] := by
        simp [List.getElem_take]
      have hMj : M[j] = (utf8EncodeChar c1)[j] := by
        rw [List.getElem_of_eq hMc1]
        exact List.getElem_append_left hjc1
      have hcont : isCont ((M.take t)[j]) = true := by
        rw [hgetj, hMj]
        exact encodeChar_getElem_cont c1 j hjpos hjc1
      have hdec : decodeUtf8 ((M.take t).drop j) =
          .error ⟨0, 1, .invalidStart⟩ := by
        rw [hfrag_cons]
        exact decodeFrom_contHead _ hcont _ 0
      rw [growLoop_eq, if_neg hguard, hdec]
      dsimp only
      rw [if_pos ⟨rfl, rfl⟩,
        if_neg (by omega : ¬(s < l + 1 ∨ 4 ≤ l + 1))]
      dsimp only
      have hpos : s - (l + 1) = L.length + (j - 1) := by omega
      have hblen2 : L.length + (j - 1) < blob.length := by
        rw [hblob_len]; omega
      have hj1M : j - 1 < M.length := by omega
      have hgetblob : blob[L.length + (j - 1)] = M[j - 1] := by
        rw [List.getElem_of_eq hblob]
        exact getElem_LMR L M R (j - 1) hj1M _
      rw [hpos, httpGet_single blob (L.length + (j - 1)) hblen2, hgetblob]
      have hj1take : j - 1 < (M.take t).length := by
        simp only [List.length_take]; omega
      have hstep : (M.take t).drop (j - 1) =
          (M.take t)[j - 1] :: (M.take t).drop j := by
        have hh := List.drop_eq_getElem_cons (l := M.take t) (n := j - 1) hj1take
        rw [show j - 1 + 1 = j from by omega] at hh
        exact hh
      have hget1 : (M.take t)[j - 1] = M[j - 1] := by
        simp [List.getElem_take]
      have hnewfrag : [M[j - 1]] ++ (M.take t).drop j =
          (M.take t).drop (j - 1) := by
        rw [hstep, hget1]; rfl
      rw [hnewfrag]
      exact ih blob L M R mid c1 clast s en orig (j - 1) t (l + 1) r
        hblob hM hvalid hhead hlast hLs hsc1 hencl hen hsen hblen
        (by omega) ht1 ht2 (by omega) (by omega) (by omega)
    · -- right phase: no left cut remains
      have hj0 : j = 0 := by omega
      subst hj0
      rw [List.drop_zero]
      by_cases htM : t < M.length
      · -- the last code point is still truncated
        have hmidne : mid ≠ [] := by rw [hmid]; simp
        have hlasteq : mid.getLast hmidne = clast := by
          have hh := List.getLast?_eq_getLast mid hmidne
          have hl2 := hlast
          rw [hh] at hl2
          injection hl2
        have hfront : mid.dropLast ++ [clast] = mid := by
          rw [← hlasteq]
          exact List.dropLast_append_getLast hmidne
        have hfrvalid : ∀ x ∈ mid.dropLast, ValidScalar x :=
          fun x hx => hvalid x ((List.dropLast_sublist mid).subset hx)
        have hclv : ValidScalar clast := hvalid clast (by
          rw [← hfront]; simp)
        have hMfr : M = utf8Encode mid.dropLast ++ utf8EncodeChar clast := by
          conv_lhs => rw [hM]
          conv_lhs => rw [← hfront]
          rw [utf8Encode_append]
          simp [utf8Encode]
        have hMlen : M.length =
            (utf8Encode mid.dropLast).length + (utf8EncodeChar clast).length := by
          rw [hMfr]; simp [List.length_append]
        obtain ⟨k, hk⟩ : ∃ k, t = (utf8Encode mid.dropLast).length + k :=
          ⟨t - (utf8Encode mid.dropLast).length, by omega⟩
        have hkpos : 0 < k := by omega
        have hkcl : k < (utf8EncodeChar clast).length := by omega
        have htake : M.take t =
            utf8Encode mid.dropLast ++ (utf8EncodeChar clast).take k := by
          rw [hMfr, hk, List.take_append_eq_append_take,
            List.take_of_length_le (by omega), Nat.add_sub_cancel_left]
        have hdec : decodeUtf8 (M.take t) =
            .error ⟨(utf8Encode mid.dropLast).length, t, .unexpectedEnd⟩ := by
          rw [htake]
          simp only [decodeUtf8]
          rw [decodeFrom_encode_take mid.dropLast hfrvalid clast hclv k
            hkpos hkcl 0]
          simp [hk]
        rw [growLoop_eq, if_neg hguard, hdec]
        dsimp only
        rw [if_neg (by simp), if_pos ⟨by simp [List.length_take]; omega, rfl⟩]
        rw [if_neg (by omega : ¬(blob.length ≤ en + (r + 1) + 1 ∨ 4 ≤ r + 1))]
        dsimp only
        have hposr : en + (r + 1) = L.length + t := by omega
        have hbl2 : L.length + t < blob.length := by rw [hblob_len]; omega
        have hgetblob : blob[L.length + t] = M[t] := by
          rw [List.getElem_of_eq hblob]
          exact getElem_LMR L M R t htM _
        rw [hposr, httpGet_single blob (L.length + t) hbl2, hgetblob,
          List.take_concat_get' M t htM,
          show M.take (t + 1) = (M.take (t + 1)).drop 0 from
            (List.drop_zero _).symm]
        exact ih blob L M R mid c1 clast s en orig 0 (t + 1) l (r + 1)
          hblob hM hvalid hhead hlast hLs hsc1 hencl hen hsen hblen
          (by omega) (by omega) (by omega) (by omega) (by omega) (by omega)
      · -- the fragment is all of M
        have ht0 : t = M.length := by omega
        subst ht0
        rw [List.take_length, growLoop_eq, if_neg hguard, hM,
          decodeUtf8_encode mid hvalid]

theorem grow_init_frag (blob L M R : List Nat) (s en : Nat)
    (hblob : blob = L ++ M ++ R) (hLs : L.length ≤ s) (hsen : s ≤ en)
    (hen : en < L.length + M.length) :
    httpGet blob s (some en) =
      (M.take (en + 1 - L.length)).drop (s - L.length) := by
  show (blob.take (en + 1)).drop s = _
  have htk : blob.take (en + 1) = L ++ M.take (en + 1 - L.length) := by
    rw [hblob, List.take_append_eq_append_take]
    have h1 : en + 1 - (L ++ M).length = 0 := by
      have hLM : (L ++ M).length = L.length + M.length := by simp
      omega
    rw [h1, List.take_zero, List.append_nil,
      List.take_append_eq_append_take,
      List.take_of_length_le (show L.length ≤ en + 1 by omega)]
  rw [htk, List.drop_append_eq_append_drop,
    List.drop_eq_nil_of_le hLs, List.nil_append]

/-- `grow_to_valid_string(start=s, end=en)` returns exactly the code
points whose encodings overlap the requested range, when the range edges
lie inside `mid`'s first and last code points and the upper edge is at
least four bytes from the end of the blob. -/
theorem grow_exact (blob L M R mid : List Nat) (c1 clast s en : Nat)
    (hblob : blob = L ++ M ++ R)
    (hM : M = utf8Encode mid)
    (hvalid : ∀ c ∈ mid, ValidScalar c)
    (hhead : mid.head? = some c1)
    (hlast : mid.getLast? = some clast)
    (hLs : L.length ≤ s)
    (hsc1 : s < L.length + (utf8EncodeChar c1).length)
    (hencl : L.length + M.length ≤ en + (utf8EncodeChar clast).length)
    (hen : en < L.length + M.length)
    (hsen : s ≤ en)
    (hblen : en + 5 ≤ blob.length) :
    (grow_to_valid_string blob none (some s) (some en)).result = mid := by
  simp only [grow_to_valid_string]
  rw [if_neg (by simp)]
  simp only [Option.getD]
  rw [grow_init_frag blob L M R s en hblob hLs hsen hen]
  exact growLoop_exact_aux ((s - L.length) + (M.length - (en + 1 - L.length)))
    blob L M R mid c1 clast s en _ (s - L.length) (en + 1 - L.length) 0 0
    hblob hM hvalid hhead hlast hLs hsc1 hencl hen hsen hblen
    le_rfl (by omega) (by omega) (by omega) (by omega) le_rfl

/-- Same as `grow_exact` for the `byte_range=range(s, en+1)` calling
convention. -/
theorem grow_exact_range (blob L M R mid : List Nat) (c1 clast s en : Nat)
    (rg : PyRange)
    (hblob : blob = L ++ M ++ R)
    (hM : M = utf8Encode mid)
    (hvalid : ∀ c ∈ mid, ValidScalar c)
    (hhead : mid.head? = some c1)
    (hlast : mid.getLast? = some clast)
    (hLs : L.length ≤ s)
    (hsc1 : s < L.length + (utf8EncodeChar c1).length)
    (hencl : L.length + M.length ≤ en + (utf8EncodeChar clast).length)
    (hen : en < L.length + M.length)
    (hsen : s ≤ en)
    (hblen : en + 5 ≤ blob.length)
    (hrs : rg.start = s) (hre : rg.stop = en + 1) :
    (grow_to_valid_string blob (some rg) none none).result = mid := by
  simp only [grow_to_valid_string]
  rw [if_neg (by simp)]
  rw [hrs, hre, show en + 1 - 1 = en from rfl]
  simp only [Option.getD]
  rw [grow_init_frag blob L M R s en hblob hLs hsen hen]
  exact growLoop_exact_aux ((s - L.length) + (M.length - (en + 1 - L.length)))
    blob L M R mid c1 clast s en _ (s - L.length) (en + 1 - L.length) 0 0
    hblob hM hvalid hhead hlast hLs hsc1 hencl hen hsen hblen
    le_rfl (by omega) (by omega) (by omega) (by omega) le_rfl

/-- `build_get_headers` (util.py lines 157–199): raises `ValueError` when
both a `byte_range` and explicit `start`/`end` are supplied; otherwise
returns the content of the `Range` header as a structured inclusive byte
interval, `none` meaning no `Range` header at all. -/
def build_get_headers (byte_range : Option PyRange)
    (start? end? : Option Nat) : Except Unit (Option (Nat × Option Nat)) :=
  if byte_range.isSome ∧ (start?.isSome ∨ end?.isSome) then .error ()
  else
    match byte_range with
    | some rg => .ok (some (rg.start, some (rg.stop - 1)))
    | none =>
      if start?.isSome ∨ end?.isSome then .ok (some (start?.getD 0, end?))
      else .ok none

/-- `SyncUrlBlob.get` / `UrlBlob.get`: build the headers, then issue the
ranged GET.  The request reaches the server only when header construction
succeeds; a conflicting-specifier `ValueError` escapes first, which is why
the error case does not consult `blob` at all. -/
def sync_get (blob : List Nat) (byte_range : Option PyRange)
    (start? end? : Option Nat) : Except Unit (List Nat) :=
  match build_get_headers byte_range start? end? with
  | .error e => .error e
  | .ok none => .ok blob
  | .ok (some (a, b)) => .ok (httpGet blob a b)

/-- `UrlBlob.stream`: builds the same headers via `build_get_headers`
before opening the streamed GET; modelled by the bytes the stream yields in
total. -/
def stream (blob : List Nat) (byte_range : Option PyRange)
    (start? end? : Option Nat) : Except Unit (List Nat) :=
  match build_get_headers byte_range start? end? with
  | .error e => .error e
  | .ok none => .ok blob
  | .ok (some (a, b)) => .ok (httpGet blob a b)

/-- A Python `str.splitlines` line terminator. -/
def isLineBreak (c : Nat) : Bool :=
  c = 0x0A || c = 0x0D || c = 0x0B || c = 0x0C || c = 0x1C || c = 0x1D ||
  c = 0x1E || c = 0x85 || c = 0x2028 || c = 0x2029

def splitlinesAux (cur : List Nat) : List Nat → List (List Nat)
  | [] => if cur.isEmpty then [] else [cur]
  | 0x0D :: 0x0A :: rest => cur :: splitlinesAux [] rest
  | c :: rest =>
    if isLineBreak c then cur :: splitlinesAux [] rest
    else splitlinesAux (cur ++ [c]) rest

/-- Python `str.splitlines()` over code points. -/
def pySplitlines (l : List Nat) : List (List Nat) := splitlinesAux [] l

/-- The exceptions the modelled accessors can raise. -/
inductive PyErr where
  | valueError
  | unicodeDecodeError (e : DecodeError)
deriving DecidableEq, Repr

/-- `get_lines` (sync.py lines 76–94, blob.py lines 70–88): fetch, then
`content.decode("utf-8").splitlines()`.  The decode is strict: a range
that cuts a code point propagates a `UnicodeDecodeError` rather than
invoking the grow/shrink boundary repair. -/
def sync_get_lines (blob : List Nat) (byte_range : Option PyRange)
    (start? end? : Option Nat) : Except PyErr (List (List Nat)) :=
  match sync_get blob byte_range start? end? with
  | .error _ => .error .valueError
  | .ok content =>
    match decodeUtf8 content with
    | .error e => .error (.unicodeDecodeError e)
    | .ok cps => .ok (pySplitlines cps)

/-- Python strings of the error-classification layer. -/
abbrev PyStr := List Char

/-- `UrlType` (common.py). -/
inductive UrlType where
  | S3
  | GCP
  | AZURE
  | GENERIC
deriving DecidableEq, Repr

/-- Which `BlobError` subclass a parsed error is constructed as. -/
inductive BlobErrKind where
  | ContainerNotFound
  | BlobNotFound
  | AuthenticationFailed
  | Retryable
  | NonRetryable
deriving DecidableEq, Repr

/-- Abstract view of what `xml.etree.ElementTree` extraction yields on an
error body: whether `ET.parse` succeeded, and the text of the first
`.//Code`, `.//Message` and `.//AuthenticationErrorDetail` elements
(`none` when the element is absent or empty).  The XML library is external
to the repository, so it is abstracted as this oracle; on a parse failure
the source leaves all extracted fields at `None`. -/
structure XmlView where
  parsed : Bool
  code : Option PyStr
  message : Option PyStr
  authDetail : Option PyStr
deriving DecidableEq, Repr

/-- A constructed `BlobError` (error.py lines 13–27): its dynamic class
(`kind`) and dataclass fields; `raw_data` is the body decoded with lossy
replacement. -/
structure BlobError where
  kind : BlobErrKind
  url_type : UrlType
  status_code : Nat
  reason : Option PyStr
  message : Option PyStr
  extra_info : Option PyStr
  raw_data : Option (List Nat)
deriving DecidableEq, Repr

/-- `parse_s3_error` (error.py lines 130–192). -/
def parse_s3_error (status_code : Nat) (reason : Option PyStr)
    (content : List Nat) (xml : XmlView) : BlobError :=
  let code := if xml.parsed then xml.code else none
  let message := if xml.parsed then xml.message else none
  let raw_data := some (decodeReplace content)
  if status_code = 404 then
    if code = some ("NoSuchBucket".data) then
      ⟨.ContainerNotFound, .S3, status_code, reason, message, none, raw_data⟩
    else
      ⟨.BlobNotFound, .S3, status_code, reason, message, none, raw_data⟩
  else if status_code = 403 then
    ⟨.AuthenticationFailed, .S3, status_code, reason, message, code, raw_data⟩
  else if 500 ≤ status_code then
    ⟨.Retryable, .S3, status_code, reason, message, none, raw_data⟩
  else
    ⟨.NonRetryable, .S3, status_code, reason, message, none, raw_data⟩

/-- `parse_azure_error` (error.py lines 55–127). -/
def parse_azure_error (status_code : Nat) (reason : Option PyStr)
    (content : List Nat) (xml : XmlView) : BlobError :=
  let code := if xml.parsed then xml.code else none
  let message := if xml.parsed then xml.message else none
  let raw_data := some (decodeReplace content)
  if status_code = 404 then
    if code = some ("ContainerNotFound".data) then
      ⟨.ContainerNotFound, .AZURE, status_code, reason, message, none, raw_data⟩
    else
      ⟨.BlobNotFound, .AZURE, status_code, reason, message, none, raw_data⟩
  else if status_code = 403 then
    ⟨.AuthenticationFailed, .AZURE, status_code, reason, message,
      (if xml.parsed then xml.authDetail else none), raw_data⟩
  else if 500 ≤ status_code then
    ⟨.Retryable, .AZURE, status_code, reason, message, none, raw_data⟩
  else
    ⟨.NonRetryable, .AZURE, status_code, reason, message, none, raw_data⟩

/-- `parse_generic_error` (error.py lines 195–226), used for GCP and
GENERIC: status-code-only classification, no body parsing. -/
def parse_generic_error (status_code : Nat) (reason : Option PyStr)
    (content : List Nat) (url_type : UrlType) : BlobError :=
  let raw_data := some (decodeReplace content)
  if status_code = 403 then
    ⟨.AuthenticationFailed, url_type, status_code, reason, none, none, raw_data⟩
  else if status_code = 404 then
    ⟨.BlobNotFound, url_type, status_code, reason, none, none, raw_data⟩
  else if 500 ≤ status_code then
    ⟨.Retryable, url_type, status_code, reason, none, none, raw_data⟩
  else
    ⟨.NonRetryable, url_type, status_code, reason, none, none, raw_data⟩

/-- `parse_error` (error.py lines 229–245): provider dispatch. -/
def parse_error (url_type : UrlType) (status_code : Nat)
    (reason : Option PyStr) (content : List Nat) (xml : XmlView) : BlobError :=
  match url_type with
  | .AZURE => parse_azure_error status_code reason content xml
  | .S3 => parse_s3_error status_code reason content xml
  | ut => parse_generic_error status_code reason content ut

def lastSegAux (acc : List Char) : List Char → List Char
  | [] => acc
  | ch :: cs => if ch = '/' then lastSegAux [] cs else lastSegAux (acc ++ [ch]) cs

/-- Python `s.split("/")[-1]`: the suffix after the last slash (the whole
string when no slash occurs). -/
def lastSlashSeg (s : PyStr) : PyStr := lastSegAux [] s

def parseDigits : List Char → Nat → Option Nat
  | [], acc => some acc
  | ch :: cs, acc =>
    if '0' ≤ ch ∧ ch ≤ '9' then parseDigits cs (acc * 10 + (ch.toNat - 48))
    else none

/-- Python `int(s)` on header values, modelled on plain digit strings
(raising, i.e. `none`, otherwise). -/
def pyInt (s : PyStr) : Option Nat :=
  if s.isEmpty then none else parseDigits s 0

/-- `UrlBlobStats.size_or_none` (stat.py lines 28–45): take the total after
the last `/` of a non-empty `Content-Range` header, else `Content-Length`;
`int()` of that value, `ValueError` (here `.error ()`) when it is not a
number, `none` when neither header is present. -/
def size_or_none (contentRange contentLength : Option PyStr) :
    Except Unit (Option Nat) :=
  let content_length : Option PyStr :=
    match contentRange with
    | some cr => if cr ≠ [] then some (lastSlashSeg cr) else contentLength
    | none => contentLength
  match content_length with
  | some t =>
    match pyInt t with
    | some n => .ok (some n)
    | none => .error ()
  | none => .ok none

theorem lastSegAux_append : ∀ (xs : List Char) (acc ys : List Char),
    lastSegAux acc (xs ++ '/' :: ys) = lastSegAux [] ys := by
  intro xs
  induction xs with
  | nil => intro acc ys; simp [lastSegAux]
  | cons x xs ih =>
    intro acc ys
    simp only [List.cons_append, lastSegAux]
    split_ifs <;> exact ih _ _

theorem lastSegAux_noSlash : ∀ (ys acc : List Char), '/' ∉ ys →
    lastSegAux acc ys = acc ++ ys := by
  intro ys
  induction ys with
  | nil => intro acc _; simp [lastSegAux]
  | cons y ys ih =>
    intro acc hy
    simp only [List.mem_cons, not_or] at hy
    simp only [lastSegAux]
    rw [if_neg (fun hh => hy.1 hh.symm), ih _ hy.2]
    simp

/-!  Claim theorems. -/

/-- C1: for every blob whose bytes are valid UTF-8 (`blob = L ++ M ++ R`
with `M` the encoding of the code points `mid` overlapping the range) and
every requested byte range `[s, en]` that cuts a (multi-byte) code point at
either edge — `s` inside the first code point of `mid`, `en` inside its
last — the grow operation (`get_valid_string` / `grow_to_valid_string`),
with its one-byte fetches backed by the full original byte string, returns
the exact original substring losslessly, provided neither edge of the
range is within 3 bytes of the object boundary (`4 ≤ s`, and at least four
bytes beyond `en`); both the `start`/`end` and the `byte_range` calling
conventions are covered. -/
theorem claim_C1_grow_lossless (blob L M R mid : List Nat)
    (c1 clast s en : Nat) (rg : PyRange)
    (hblob : blob = L ++ M ++ R)
    (hM : M = utf8Encode mid)
    (hvalid : ∀ c ∈ mid, ValidScalar c)
    (hhead : mid.head? = some c1)
    (hlast : mid.getLast? = some clast)
    (hLs : L.length ≤ s)
    (hsc1 : s < L.length + (utf8EncodeChar c1).length)
    (hencl : L.length + M.length ≤ en + (utf8EncodeChar clast).length)
    (hen : en < L.length + M.length)
    (hsen : s ≤ en)
    (hs4 : 4 ≤ s)
    (hblen : en + 5 ≤ blob.length)
    (hrs : rg.start = s) (hre : rg.stop = en + 1) :
    (grow_to_valid_string blob none (some s) (some en)).result = mid ∧
    (grow_to_valid_string blob (some rg) none none).result = mid :=
  ⟨grow_exact blob L M R mid c1 clast s en hblob hM hvalid hhead hlast hLs
      hsc1 hencl hen hsen hblen,
    grow_exact_range blob L M R mid c1 clast s en rg hblob hM hvalid hhead
      hlast hLs hsc1 hencl hen hsen hblen hrs hre⟩

theorem claim_C1_grow_lossless_witness :
    (grow_to_valid_string [65, 66, 67, 68, 228, 184, 173, 69, 70, 71, 72, 73]
      none (some 5) (some 6)).result = [0x4E2D] ∧
    (grow_to_valid_string [65, 66, 67, 68, 228, 184, 173, 69, 70, 71, 72, 73]
      (some ⟨5, 7⟩) none none).result = [0x4E2D] :=
  claim_C1_grow_lossless [65, 66, 67, 68, 228, 184, 173, 69, 70, 71, 72, 73]
    [65, 66, 67, 68] [228, 184, 173] [69, 70, 71, 72, 73] [0x4E2D]
    0x4E2D 0x4E2D 5 6 ⟨5, 7⟩ (by decide) (by decide) (by decide) (by decide)
    (by decide) (by decide) (by decide) (by decide) (by decide) (by decide)
    (by decide) (by decide) (by decide) (by decide)

/-- C2: whenever the grow loop aborts it returns the original first-fetched
fragment `orig` decoded with lossy replacement, discarding the extension
bytes accumulated in the current fragment `frag` and the extension counters
`l`, `r` — the four abort circumstances being the extension-counter cap, a
start-of-fragment failure that cannot extend left (no lower bound, crossing
the blob start, or the left cap), an end-of-fragment failure that cannot
extend right (no upper bound, reaching the blob end, or the right cap), and
a decode failure strictly inside the fragment.  `frag`, `l`, `r` are
universally quantified while the conclusion mentions only `orig`, so the
abort result is independent of how far extension progressed. -/
theorem claim_C2_grow_abort (blob : List Nat) (rs re : Option Nat)
    (orig frag : List Nat) (l r : Nat) :
    ((4 ≤ l ∨ 4 ≤ r) →
      (growLoop blob rs re orig frag l r).result = decodeReplace orig) ∧
    (∀ e, decodeUtf8 frag = .error e →
      ((e.start = 0 ∧ e.reason = .invalidStart) →
        (rs = none ∨ ∃ s, rs = some s ∧ (s < l + 1 ∨ 4 ≤ l + 1)) →
        (growLoop blob rs re orig frag l r).result = decodeReplace orig) ∧
      ((e.stop = frag.length ∧ e.reason = .unexpectedEnd) →
        (re = none ∨ ∃ en, re = some en ∧
          (blob.length ≤ en + (r + 1) + 1 ∨ 4 ≤ r + 1)) →
        (growLoop blob rs re orig frag l r).result = decodeReplace orig) ∧
      (¬(e.start = 0 ∧ e.reason = .invalidStart) →
        ¬(e.stop = frag.length ∧ e.reason = .unexpectedEnd) →
        (growLoop blob rs re orig frag l r).result = decodeReplace orig)) := by
  constructor
  · intro hguard
    rw [growLoop_eq, if_pos hguard]
  · intro e he
    by_cases hguard : 4 ≤ l ∨ 4 ≤ r
    · exact ⟨fun _ _ => by rw [growLoop_eq, if_pos hguard],
        fun _ _ => by rw [growLoop_eq, if_pos hguard],
        fun _ _ => by rw [growLoop_eq, if_pos hguard]⟩
    · refine ⟨?_, ?_, ?_⟩
      · intro hleft hrs
        rw [growLoop_eq, if_neg hguard]
        simp only [he]
        rw [if_pos hleft]
        rcases hrs with hnone | ⟨s, hsome, hcond⟩
        · rw [hnone]
        · rw [hsome]
          dsimp only
          rw [if_pos hcond]
      · intro hright hre
        have hnleft : ¬(e.start = 0 ∧ e.reason = .invalidStart) := by
          rintro ⟨-, hr2⟩
          rw [hright.2] at hr2
          exact DecReason.noConfusion hr2
        rw [growLoop_eq, if_neg hguard]
        simp only [he]
        rw [if_neg hnleft, if_pos hright]
        rcases hre with hnone | ⟨en, hsome, hcond⟩
        · rw [hnone]
        · rw [hsome]
          dsimp only
          rw [if_pos hcond]
      · intro hnl hnr
        rw [growLoop_eq, if_neg hguard]
        simp only [he]
        rw [if_neg hnl, if_neg hnr]

theorem claim_C2_grow_abort_witness :
    decodeUtf8 [0x80] = .error ⟨0, 1, .invalidStart⟩ ∧
    (growLoop [65, 66] (some 0) (some 1) [0xFF] [0x80] 0 0).result =
      decodeReplace [0xFF] :=
  ⟨rfl,
    ((claim_C2_grow_abort [65, 66] (some 0) (some 1) [0xFF] [0x80] 0 0).2
        ⟨0, 1, .invalidStart⟩ rfl).1 ⟨rfl, rfl⟩
      (Or.inr ⟨0, rfl, Or.inl (by decide)⟩)⟩

/-- C3: for every input range and fragment the grow operation issues at
most 3 extra one-byte fetches on the left edge and at most 3 on the right
edge, and its extension loop always terminates with a string result: any
fuel of at least 9 iterations yields the same (always-defined) output, the
lossy-replacement fallback being the worst case. -/
theorem claim_C3_grow_fetch_bound (blob : List Nat)
    (byte_range : Option PyRange) (start? end? : Option Nat)
    (rs re : Option Nat) (orig frag : List Nat) (f : Nat) (hf : 9 ≤ f) :
    (grow_to_valid_string blob byte_range start? end?).leftFetches ≤ 3 ∧
    (grow_to_valid_string blob byte_range start? end?).rightFetches ≤ 3 ∧
    (growLoop blob rs re orig frag 0 0).leftFetches ≤ 3 ∧
    (growLoop blob rs re orig frag 0 0).rightFetches ≤ 3 ∧
    growLoopF f blob rs re orig frag 0 0 =
      growLoop blob rs re orig frag 0 0 := by
  have hgen : ∀ (rs2 re2 : Option Nat) (orig2 frag2 : List Nat),
      (growLoop blob rs2 re2 orig2 frag2 0 0).leftFetches ≤ 3 ∧
      (growLoop blob rs2 re2 orig2 frag2 0 0).rightFetches ≤ 3 := by
    intro rs2 re2 orig2 frag2
    have hb := growLoopF_fetch_bounds 9 blob rs2 re2 orig2 frag2 0 0
    constructor
    · show (growLoopF 9 blob rs2 re2 orig2 frag2 0 0).leftFetches ≤ 3
      omega
    · show (growLoopF 9 blob rs2 re2 orig2 frag2 0 0).rightFetches ≤ 3
      omega
  have hwrap : (grow_to_valid_string blob byte_range start? end?).leftFetches ≤ 3 ∧
      (grow_to_valid_string blob byte_range start? end?).rightFetches ≤ 3 := by
    simp only [grow_to_valid_string]
    by_cases hall : byte_range = none ∧ start? = none ∧ end? = none
    · rw [if_pos hall]; exact ⟨Nat.zero_le 3, Nat.zero_le 3⟩
    · rw [if_neg hall]
      exact ⟨(hgen _ _ _ _).1, (hgen _ _ _ _).2⟩
  refine ⟨hwrap.1, hwrap.2, (hgen rs re orig frag).1, (hgen rs re orig frag).2, ?_⟩
  exact growLoopF_fuel f 9 blob rs re orig frag 0 0 (by omega) (by omega)

theorem claim_C3_grow_fetch_bound_witness :
    (grow_to_valid_string [65] none (some 0) none).leftFetches ≤ 3 ∧
    growLoopF 10 [65] (some 0) none [65] [65] 0 0 =
      growLoop [65] (some 0) none [65] [65] 0 0 := by
  have h := claim_C3_grow_fetch_bound [65] none (some 0) none (some 0) none
    [65] [65] 10 (by decide)
  exact ⟨h.1, h.2.2.2.2⟩

/-- C4: `shrink_to_valid_string` performs exactly one fetch (the initial
fragment) and no additional I/O afterwards, and each iteration of its loop
behaves as specified: a strict-decode failure whose interval starts at
offset 0 drops the bytes `[0, e.end)` and retries, a failure whose
interval ends at the buffer's length keeps `[0, e.start)` and retries, a
failure strictly inside returns the current fragment decoded with lossy
replacement immediately, and a clean decode returns it. -/
theorem claim_C4_shrink_steps (blob : List Nat) (byte_range : Option PyRange)
    (start? end? : Option Nat) (frag : List Nat) (e : DecodeError)
    (cps : List Nat) :
    (shrink_to_valid_string blob byte_range start? end?).fetches = 1 ∧
    (decodeUtf8 frag = .ok cps → shrinkLoop frag = cps) ∧
    (decodeUtf8 frag = .error e → e.start = 0 →
      shrinkLoop frag = shrinkLoop (frag.drop e.stop)) ∧
    (decodeUtf8 frag = .error e → e.start ≠ 0 → e.stop = frag.length →
      shrinkLoop frag = shrinkLoop (frag.take e.start)) ∧
    (decodeUtf8 frag = .error e → e.start ≠ 0 → e.stop ≠ frag.length →
      shrinkLoop frag = decodeReplace frag) := by
  refine ⟨?_, ?_, ?_, ?_, ?_⟩
  · simp only [shrink_to_valid_string]
    by_cases hall : byte_range = none ∧ start? = none ∧ end? = none
    · rw [if_pos hall]
    · rw [if_neg hall]
  · intro hd; rw [shrinkLoop_eq, hd]
  · intro hd h0; rw [shrinkLoop_eq, hd]; simp [h0]
  · intro hd h0 hend; rw [shrinkLoop_eq, hd]; simp [h0, hend]
  · intro hd h0 hend; rw [shrinkLoop_eq, hd]; simp [h0, hend]

theorem claim_C4_shrink_steps_witness :
    (shrink_to_valid_string [65] none (some 0) none).fetches = 1 ∧
    shrinkLoop [0xC3] = shrinkLoop ([0xC3].drop 1) := by
  have h := claim_C4_shrink_steps [65] none (some 0) none [0xC3]
    ⟨0, 1, .unexpectedEnd⟩ []
  exact ⟨h.1, h.2.2.1 rfl rfl⟩

/-- C5: for every valid UTF-8 byte string (the encoding of code points
`cps`) and every byte-offset split point `i`, shrinking the two slices
reproduces `cps` with at worst the code point cut at the split boundary
trimmed away; the concatenated output is a contiguous-splice
sub-sequence of `cps`, never corrupted and never replacement-
substituted. -/
theorem claim_C5_shrink_split (cps : List Nat)
    (h : ∀ c ∈ cps, ValidScalar c) (i : Nat) :
    ∃ pre mid post, cps = pre ++ mid ++ post ∧ mid.length ≤ 1 ∧
      (utf8Encode pre).length ≤ i ∧
      (mid = [] ∨ i < (utf8Encode pre).length + (utf8Encode mid).length) ∧
      shrinkLoop ((utf8Encode cps).take i) ++
        shrinkLoop ((utf8Encode cps).drop i) = pre ++ post :=
  shrink_reconstruct cps h i

theorem claim_C5_shrink_split_witness :
    ∃ pre mid post, ([65, 0x4E2D, 66] : List Nat) = pre ++ mid ++ post ∧
      mid.length ≤ 1 ∧
      (utf8Encode pre).length ≤ 2 ∧
      (mid = [] ∨ 2 < (utf8Encode pre).length + (utf8Encode mid).length) ∧
      shrinkLoop ((utf8Encode [65, 0x4E2D, 66]).take 2) ++
        shrinkLoop ((utf8Encode [65, 0x4E2D, 66]).drop 2) = pre ++ post :=
  claim_C5_shrink_split [65, 0x4E2D, 66] (by decide) 2

/-- C8 counterexample: with a present-but-empty `Content-Range` header the
source's Python truthiness test (`if content_range:`) falls through to
`Content-Length`, so the decoded size comes from `Content-Length` even
though `Content-Range` is present (`some []`, not `none`) — refuting
"Content-Length is used only when Content-Range is absent" as literally
stated. -/
theorem claim_C8_counterexample :
    size_or_none (some []) (some ['5']) = .ok (some 5) ∧
    (some ([] : PyStr)) ≠ (none : Option PyStr) :=
  ⟨rfl, by simp⟩

/-- C8 (amended): for every header set containing both a `Content-Range`
header of the form `bytes a-b/total` and a `Content-Length` header, the
decoded blob size is the total taken from `Content-Range`, not the
`Content-Length` value; `Content-Length` is used only when `Content-Range`
is absent or empty. -/
theorem claim_C8_size_preference (before total t : PyStr) (cl : Option PyStr)
    (n m : Nat) (hns : '/' ∉ total) (hn : pyInt total = some n)
    (hm : pyInt t = some m) :
    size_or_none (some (before ++ '/' :: total)) cl = .ok (some n) ∧
    size_or_none none (some t) = .ok (some m) ∧
    size_or_none (some []) (some t) = .ok (some m) := by
  have hseg : lastSlashSeg (before ++ '/' :: total) = total := by
    show lastSegAux [] (before ++ '/' :: total) = total
    rw [lastSegAux_append, lastSegAux_noSlash total [] hns]
    simp
  refine ⟨?_, ?_, ?_⟩
  · simp only [size_or_none]
    rw [if_pos (by simp), hseg]
    dsimp only
    rw [hn]
  · simp only [size_or_none]
    rw [hm]
  · simp only [size_or_none]
    rw [if_neg (by simp)]
    dsimp only
    rw [hm]

theorem claim_C8_size_preference_witness :
    size_or_none (some (("bytes 0-0").data ++ '/' :: ("1024").data))
      (some (("1").data)) = .ok (some 1024) ∧
    size_or_none none (some (("1").data)) = .ok (some 1) ∧
    size_or_none (some []) (some (("1").data)) = .ok (some 1) :=
  claim_C8_size_preference ("bytes 0-0").data ("1024").data ("1").data
    (some (("1").data)) 1024 1 (by decide) (by decide) (by decide)

/-- C9 counterexample: `grow_to_valid_string` (and likewise
`shrink_to_valid_string`) called with both a `byte_range` and an explicit
`start` does not fail with the conflicting-specifiers error: the source
converts `byte_range` itself and silently ignores `start`/`end`, returning
an ordinary string result — refuting the claim that every range-taking
operation raises on the conflict. -/
theorem claim_C9_counterexample :
    (grow_to_valid_string [65] (some ⟨0, 2⟩) (some 1) none).result = [65] ∧
    grow_to_valid_string [65] (some ⟨0, 2⟩) (some 1) none =
      grow_to_valid_string [65] (some ⟨0, 2⟩) none none ∧
    (shrink_to_valid_string [65] (some ⟨0, 2⟩) (some 1) none).result = [65] :=
  ⟨rfl, rfl, rfl⟩

/-- C9 (amended): the operations that pass both range parameters to
`build_get_headers` — `get`, `get_lines` and `stream` — fail with the
conflicting-specifiers `ValueError` during header construction, before any
network request is issued (the error is produced for every blob alike,
without consulting it); `grow_to_valid_string` and
`shrink_to_valid_string`, which convert `byte_range` themselves, instead
silently ignore the explicit `start`/`end` when `byte_range` is supplied
and never raise the conflict error. -/
theorem claim_C9_conflicting_range (blob : List Nat) (rg : PyRange)
    (start? end? : Option Nat) (hse : start?.isSome ∨ end?.isSome) :
    build_get_headers (some rg) start? end? = .error () ∧
    sync_get blob (some rg) start? end? = .error () ∧
    sync_get_lines blob (some rg) start? end? = .error .valueError ∧
    stream blob (some rg) start? end? = .error () ∧
    grow_to_valid_string blob (some rg) start? end? =
      grow_to_valid_string blob (some rg) none none ∧
    shrink_to_valid_string blob (some rg) start? end? =
      shrink_to_valid_string blob (some rg) none none := by
  have hh : build_get_headers (some rg) start? end? = .error () := by
    simp only [build_get_headers]
    rw [if_pos ⟨rfl, hse⟩]
  refine ⟨hh, ?_, ?_, ?_, ?_, ?_⟩
  · simp only [sync_get, hh]
  · simp only [sync_get_lines, sync_get, hh]
  · simp only [stream, hh]
  · simp only [grow_to_valid_string]
    rw [if_neg (by simp), if_neg (by simp)]
  · simp only [shrink_to_valid_string]
    rw [if_neg (by simp), if_neg (by simp)]

theorem claim_C9_conflicting_range_witness :
    sync_get [65] (some ⟨0, 2⟩) (some 1) none = .error () ∧
    sync_get_lines [65] (some ⟨0, 2⟩) (some 1) none = .error .valueError ∧
    stream [65] (some ⟨0, 2⟩) (some 1) none = .error () := by
  have h := claim_C9_conflicting_range [65] ⟨0, 2⟩ (some 1) none (Or.inl rfl)
  exact ⟨h.2.1, h.2.2.1, h.2.2.2.1⟩

/-- C6: classification follows the provider table.  For S3 with a parsed
XML body: status 404 with `Code = "NoSuchBucket"` yields
`ContainerNotFound`, any other 404 yields `BlobNotFound`, 403 yields
`AuthenticationFailed` with `extra_info` set to the XML `Code`, status
`≥ 500` yields `Retryable`, anything else `NonRetryable`.  For GCP and
GENERIC, classification uses only the status code (403 authentication,
404 blob-not-found, `≥ 500` retryable, else non-retryable) and
`ContainerNotFound` is never produced. -/
theorem claim_C6_classification (st : Nat) (reason : Option PyStr)
    (content : List Nat) (xml : XmlView) (ut : UrlType)
    (hx : xml.parsed = true) (hut : ut = .GCP ∨ ut = .GENERIC) :
    (st = 404 → xml.code = some ("NoSuchBucket").data →
      (parse_error .S3 st reason content xml).kind = .ContainerNotFound) ∧
    (st = 404 → xml.code ≠ some ("NoSuchBucket").data →
      (parse_error .S3 st reason content xml).kind = .BlobNotFound) ∧
    (st = 403 →
      (parse_error .S3 st reason content xml).kind = .AuthenticationFailed ∧
      (parse_error .S3 st reason content xml).extra_info = xml.code) ∧
    (500 ≤ st → (parse_error .S3 st reason content xml).kind = .Retryable) ∧
    (st ≠ 404 → st ≠ 403 → st < 500 →
      (parse_error .S3 st reason content xml).kind = .NonRetryable) ∧
    (st = 403 →
      (parse_error ut st reason content xml).kind = .AuthenticationFailed) ∧
    (st = 404 →
      (parse_error ut st reason content xml).kind = .BlobNotFound) ∧
    (500 ≤ st → (parse_error ut st reason content xml).kind = .Retryable) ∧
    (st ≠ 403 → st ≠ 404 → st < 500 →
      (parse_error ut st reason content xml).kind = .NonRetryable) ∧
    (parse_error ut st reason content xml).kind ≠ .ContainerNotFound := by
  have hS3 : parse_error .S3 st reason content xml =
      parse_s3_error st reason content xml := rfl
  have hG : parse_error ut st reason content xml =
      parse_generic_error st reason content ut := by
    rcases hut with h | h <;> subst h <;> rfl
  rw [hS3, hG]
  refine ⟨?_, ?_, ?_, ?_, ?_, ?_, ?_, ?_, ?_, ?_⟩
  · intro h404 hcode
    subst h404
    simp [parse_s3_error, hx, hcode]
  · intro h404 hcode
    subst h404
    simp [parse_s3_error, hx, hcode]
  · intro h403
    subst h403
    constructor <;> simp [parse_s3_error, hx]
  · intro h500
    simp only [parse_s3_error]
    rw [if_neg (by omega), if_neg (by omega), if_pos h500]
  · intro h404 h403 h500
    simp only [parse_s3_error]
    rw [if_neg h404, if_neg h403, if_neg (by omega)]
  · intro h403
    subst h403
    simp [parse_generic_error]
  · intro h404
    subst h404
    simp [parse_generic_error]
  · intro h500
    simp only [parse_generic_error]
    rw [if_neg (by omega), if_neg (by omega), if_pos h500]
  · intro h403 h404 h500
    simp only [parse_generic_error]
    rw [if_neg h403, if_neg h404, if_neg (by omega)]
  · simp only [parse_generic_error]
    split_ifs <;> simp

theorem claim_C6_classification_witness :
    (parse_error .S3 404 none []
      ⟨true, some ("NoSuchBucket").data, none, none⟩).kind =
        .ContainerNotFound ∧
    (parse_error .GCP 404 none []
      ⟨true, some ("NoSuchBucket").data, none, none⟩).kind = .BlobNotFound := by
  have h := claim_C6_classification 404 none []
    ⟨true, some ("NoSuchBucket").data, none, none⟩ .GCP rfl (Or.inl rfl)
  exact ⟨h.1 rfl rfl, h.2.2.2.2.2.2.1 rfl⟩

/-- C7: error classification is total — `parse_error` is a pure total
function of the provider tag, status code, reason phrase, body bytes and
the XML-extraction view, never raising: for every input (including empty,
non-XML and non-UTF-8 bodies, where the XML view is unparsed) it returns a
`BlobError` that always retains the raw body text decoded with lossy
replacement, and an unparsable XML body degrades S3/Azure classification
to exactly the status-code-only classification of the generic parser. -/
theorem claim_C7_classification_total (ut : UrlType) (st : Nat)
    (reason : Option PyStr) (content : List Nat) (xml : XmlView) :
    (parse_error ut st reason content xml).raw_data =
      some (decodeReplace content) ∧
    (xml.parsed = false →
      (parse_error ut st reason content xml).kind =
        (parse_generic_error st reason content ut).kind) := by
  constructor
  · cases ut <;>
      simp only [parse_error, parse_s3_error, parse_azure_error,
        parse_generic_error] <;>
      split_ifs <;> rfl
  · intro hp
    cases ut <;>
      simp only [parse_error, parse_s3_error, parse_azure_error,
        parse_generic_error, hp, Bool.false_eq_true, if_false] <;>
      split_ifs <;> first | rfl | omega | simp_all

theorem claim_C7_classification_total_witness :
    (parse_error .S3 404 none [0xFF] ⟨false, none, none, none⟩).raw_data =
      some [0xFFFD] ∧
    (parse_error .S3 404 none [0xFF] ⟨false, none, none, none⟩).kind =
      (parse_generic_error 404 none [0xFF] .S3).kind := by
  have h := claim_C7_classification_total .S3 404 none [0xFF]
    ⟨false, none, none, none⟩
  exact ⟨h.1.trans (by rfl), h.2 rfl⟩

theorem enc_last_decomp (xs : List Nat) (clast : Nat)
    (hlast : xs.getLast? = some clast) :
    xs.dropLast ++ [clast] = xs ∧
    utf8Encode xs = utf8Encode xs.dropLast ++ utf8EncodeChar clast := by
  have hne : xs ≠ [] := by
    intro h; subst h; simp at hlast
  have hlasteq : xs.getLast hne = clast := by
    have hh := List.getLast?_eq_getLast xs hne
    have hl2 := hlast
    rw [hh] at hl2
    injection hl2
  have hfront : xs.dropLast ++ [clast] = xs := by
    rw [← hlasteq]; exact List.dropLast_append_getLast hne
  refine ⟨hfront, ?_⟩
  conv_lhs => rw [← hfront]
  rw [utf8Encode_append]
  simp [utf8Encode]

/-- Shrinking a right-truncated valid encoding whose truncation point lies
inside the last code point (or exactly at the end) yields all the code
points, or all but the last. -/
theorem shrink_take_enc (xs : List Nat) (hval : ∀ x ∈ xs, ValidScalar x)
    (clast : Nat) (hlast : xs.getLast? = some clast) (u : Nat)
    (hgt : (utf8Encode xs).length - (utf8EncodeChar clast).length < u)
    (hle : u ≤ (utf8Encode xs).length) :
    shrinkLoop ((utf8Encode xs).take u) = xs ∨
    shrinkLoop ((utf8Encode xs).take u) = xs.dropLast := by
  obtain ⟨hfront, hEnc⟩ := enc_last_decomp xs clast hlast
  have hfrv : ∀ x ∈ xs.dropLast, ValidScalar x :=
    fun x hx => hval x ((List.dropLast_sublist xs).subset hx)
  have hclv : ValidScalar clast := hval clast (by rw [← hfront]; simp)
  have hlen : (utf8Encode xs).length =
      (utf8Encode xs.dropLast).length + (utf8EncodeChar clast).length := by
    rw [hEnc]; simp [List.length_append]
  by_cases hu : u = (utf8Encode xs).length
  · left
    rw [hu, List.take_length, shrinkLoop_encode xs hval]
  · right
    obtain ⟨k, hk⟩ : ∃ k, u = (utf8Encode xs.dropLast).length + k :=
      ⟨u - (utf8Encode xs.dropLast).length, by omega⟩
    have hkpos : 0 < k := by omega
    have hkcl : k < (utf8EncodeChar clast).length := by omega
    have htk : (utf8Encode xs).take u =
        utf8Encode xs.dropLast ++ (utf8EncodeChar clast).take k := by
      rw [hEnc, hk, List.take_append_eq_append_take,
        List.take_of_length_le (by omega), Nat.add_sub_cancel_left]
    rw [htk, shrinkLoop_encode_take xs.dropLast hfrv clast hclv k hkpos hkcl]

/-- A double-cut fragment whose first kept byte is inside a code point
fails immediately with an invalid-start error of span one. -/
theorem decode_take_drop_contHead (M : List Nat) (c1 : Nat) (midtl : List Nat)
    (hMc1 : M = utf8EncodeChar c1 ++ utf8Encode midtl) (j t : Nat)
    (hj : 0 < j) (hjc1 : j < (utf8EncodeChar c1).length) (hjt : j < t)
    (ht : t ≤ M.length) :
    decodeUtf8 ((M.take t).drop j) = .error ⟨0, 1, .invalidStart⟩ := by
  have hjM : j < M.length := by
    have hh : (utf8EncodeChar c1).length ≤ M.length := by
      rw [hMc1]; simp [List.length_append]
    omega
  have hjtake : j < (M.take t).length := by simp only [List.length_take]; omega
  rw [List.drop_eq_getElem_cons hjtake]
  have hgetj : (M.take t)[j] = M[j] := by simp [List.getElem_take]
  have hMj : M[j] = (utf8EncodeChar c1)[j] := by
    rw [List.getElem_of_eq hMc1]
    exact List.getElem_append_left hjc1
  have hcont : isCont ((M.take t)[j]) = true := by
    rw [hgetj, hMj]; exact encodeChar_getElem_cont c1 j hj hjc1
  exact decodeFrom_contHead _ hcont _ 0

/-- A valid encoding truncated inside its last code point fails to decode
with an unexpected-end error spanning to the end of the buffer. -/
theorem decode_take_enc_trunc (xs : List Nat) (hval : ∀ x ∈ xs, ValidScalar x)
    (clast : Nat) (hlast : xs.getLast? = some clast) (u : Nat)
    (hgt : (utf8Encode xs).length - (utf8EncodeChar clast).length < u)
    (hlt : u < (utf8Encode xs).length) :
    decodeUtf8 ((utf8Encode xs).take u) =
      .error ⟨(utf8Encode xs.dropLast).length, u, .unexpectedEnd⟩ := by
  obtain ⟨hfront, hEnc⟩ := enc_last_decomp xs clast hlast
  have hfrv : ∀ x ∈ xs.dropLast, ValidScalar x :=
    fun x hx => hval x ((List.dropLast_sublist xs).subset hx)
  have hclv : ValidScalar clast := hval clast (by rw [← hfront]; simp)
  have hlen : (utf8Encode xs).length =
      (utf8Encode xs.dropLast).length + (utf8EncodeChar clast).length := by
    rw [hEnc]; simp [List.length_append]
  obtain ⟨k, hk⟩ : ∃ k, u = (utf8Encode xs.dropLast).length + k :=
    ⟨u - (utf8Encode xs.dropLast).length, by omega⟩
  have hkpos : 0 < k := by omega
  have hkcl : k < (utf8EncodeChar clast).length := by omega
  have htk : (utf8Encode xs).take u =
      utf8Encode xs.dropLast ++ (utf8EncodeChar clast).take k := by
    rw [hEnc, hk, List.take_append_eq_append_take,
      List.take_of_length_le (by omega), Nat.add_sub_cancel_left]
  rw [htk]
  simp only [decodeUtf8]
  rw [decodeFrom_encode_take xs.dropLast hfrv clast hclv k hkpos hkcl 0]
  simp [hk]

/-- C10: the line accessor `get_lines` decodes the fetched bytes with
strict UTF-8 and never invokes the boundary resolver: for every requested
range that cuts a code point at an edge it raises a `UnicodeDecodeError`
instead of extending, shrinking, or substituting replacement characters —
even though, on the very same range, `grow_to_valid_string` returns the
exact overlapped code points and `shrink_to_valid_string` returns a
trimmed, never corrupted or replacement-substituted, sub-sequence. -/
theorem claim_C10_get_lines_strict (blob L M R mid : List Nat)
    (c1 clast s en : Nat)
    (hblob : blob = L ++ M ++ R)
    (hM : M = utf8Encode mid)
    (hvalid : ∀ c ∈ mid, ValidScalar c)
    (hhead : mid.head? = some c1)
    (hlast : mid.getLast? = some clast)
    (hLs : L.length ≤ s)
    (hsc1 : s < L.length + (utf8EncodeChar c1).length)
    (hencl : L.length + M.length ≤ en + (utf8EncodeChar clast).length)
    (hen : en < L.length + M.length)
    (hsen : s ≤ en)
    (hblen : en + 5 ≤ blob.length)
    (hcut : L.length < s ∨ en + 1 < L.length + M.length) :
    (∃ e, sync_get_lines blob none (some s) (some en) =
      .error (.unicodeDecodeError e)) ∧
    (grow_to_valid_string blob none (some s) (some en)).result = mid ∧
    (∃ pre inner post, mid = pre ++ inner ++ post ∧ pre.length ≤ 1 ∧
      post.length ≤ 1 ∧
      (shrink_to_valid_string blob none (some s) (some en)).result = inner) := by
  have hlc1 := utf8EncodeChar_length_le c1
  have hlcl := utf8EncodeChar_length_le clast
  obtain ⟨midtl, hmid⟩ : ∃ midtl, mid = c1 :: midtl := by
    cases mid with
    | nil => simp at hhead
    | cons x xs => simp at hhead; exact ⟨xs, by rw [hhead]⟩
  have hMc1 : M = utf8EncodeChar c1 ++ utf8Encode midtl := by
    rw [hM, hmid]; rfl
  have hlenc1M : (utf8EncodeChar c1).length ≤ M.length := by
    rw [hMc1]; simp [List.length_append]
  have hMlen_mid : (utf8Encode mid).length = M.length := by rw [hM]
  have hfrag := grow_init_frag blob L M R s en hblob hLs hsen hen
  have hdecerr : ∃ e, decodeUtf8
      ((M.take (en + 1 - L.length)).drop (s - L.length)) = .error e := by
    by_cases hleft : L.length < s
    · exact ⟨⟨0, 1, .invalidStart⟩,
        decode_take_drop_contHead M c1 midtl hMc1 (s - L.length)
          (en + 1 - L.length) (by omega) (by omega) (by omega) (by omega)⟩
    · have hright : en + 1 < L.length + M.length := by
        rcases hcut with h | h
        · omega
        · exact h
      have hs0 : s - L.length = 0 := by omega
      rw [hs0, List.drop_zero]
      refine ⟨⟨(utf8Encode mid.dropLast).length, en + 1 - L.length,
        .unexpectedEnd⟩, ?_⟩
      have hh := decode_take_enc_trunc mid hvalid clast hlast
        (en + 1 - L.length) (by rw [hMlen_mid]; omega)
        (by rw [hMlen_mid]; omega)
      rw [hM]
      exact hh
  have hA : ∃ e, sync_get_lines blob none (some s) (some en) =
      .error (.unicodeDecodeError e) := by
    obtain ⟨e, he⟩ := hdecerr
    refine ⟨e, ?_⟩
    simp only [sync_get_lines, sync_get, build_get_headers]
    rw [if_neg (by simp)]
    rw [if_pos (by simp)]
    dsimp only
    simp only [Option.getD]
    rw [hfrag, he]
  have hshr : (shrink_to_valid_string blob none (some s) (some en)).result =
      shrinkLoop ((M.take (en + 1 - L.length)).drop (s - L.length)) := by
    simp only [shrink_to_valid_string]
    rw [if_neg (by simp)]
    dsimp only
    simp only [Option.getD]
    rw [hfrag]
  have hC : ∃ pre inner post, mid = pre ++ inner ++ post ∧ pre.length ≤ 1 ∧
      post.length ≤ 1 ∧
      (shrink_to_valid_string blob none (some s) (some en)).result = inner := by
    by_cases hj0 : L.length < s
    · cases hmt : midtl with
      | nil =>
        have hM1 : M = utf8EncodeChar c1 := by
          rw [hMc1, hmt]; simp [utf8Encode]
        have hcontAll : ∀ b ∈ (M.take (en + 1 - L.length)).drop (s - L.length),
            isCont b = true := by
          intro b hb
          have h1 : (M.take (en + 1 - L.length)).drop (s - L.length) =
              (M.drop (s - L.length)).take
                (en + 1 - L.length - (s - L.length)) := List.drop_take ..
          rw [h1] at hb
          have hb2 : b ∈ M.drop (s - L.length) :=
            (List.take_sublist _ _).subset hb
          rw [hM1] at hb2
          exact encodeChar_mem_drop_cont 4 c1 (s - L.length) (by omega)
            (by omega) b hb2
        refine ⟨[], [], [c1], by simp [hmid, hmt], by simp, by simp, ?_⟩
        rw [hshr, shrinkLoop_contList _ hcontAll]
      | cons c2 midtl2 =>
        have hlast2 : midtl.getLast? = some clast := by
          have hl2 := hlast
          rw [hmid, hmt, List.getLast?_cons_cons] at hl2
          rw [hmt]
          exact hl2
        have hval2 : ∀ x ∈ midtl, ValidScalar x := by
          intro x hx; exact hvalid x (by rw [hmid]; simp [hx])
        obtain ⟨hfront2, hEnc2⟩ := enc_last_decomp midtl clast hlast2
        have hlen2 : (utf8Encode midtl).length =
            (utf8Encode midtl.dropLast).length +
            (utf8EncodeChar clast).length := by
          rw [hEnc2]; simp [List.length_append]
        have hMlen2 : M.length =
            (utf8EncodeChar c1).length + (utf8Encode midtl).length := by
          rw [hMc1]; simp [List.length_append]
        have htk : M.take (en + 1 - L.length) = utf8EncodeChar c1 ++
            (utf8Encode midtl).take
              (en + 1 - L.length - (utf8EncodeChar c1).length) := by
          rw [hMc1, List.take_append_eq_append_take,
            List.take_of_length_le (by omega)]
        have hdropform : (M.take (en + 1 - L.length)).drop (s - L.length) =
            (utf8EncodeChar c1).drop (s - L.length) ++
            (utf8Encode midtl).take
              (en + 1 - L.length - (utf8EncodeChar c1).length) := by
          rw [htk, List.drop_append_eq_append_drop]
          have hz : s - L.length - (utf8EncodeChar c1).length = 0 := by omega
          rw [hz, List.drop_zero]
        have hred : shrinkLoop
            ((M.take (en + 1 - L.length)).drop (s - L.length)) =
            shrinkLoop ((utf8Encode midtl).take
              (en + 1 - L.length - (utf8EncodeChar c1).length)) := by
          rw [hdropform]
          exact shrinkLoop_dropEnc 4 c1 (s - L.length) _ (by omega) (by omega)
        have hres := shrink_take_enc midtl hval2 clast hlast2
          (en + 1 - L.length - (utf8EncodeChar c1).length)
          (by omega) (by omega)
        rcases hres with hres | hres
        · refine ⟨[c1], midtl, [], by rw [hmid]; simp, by simp, by simp, ?_⟩
          rw [hshr, hred, hres]
        · refine ⟨[c1], midtl.dropLast, [clast], ?_, by simp, by simp, ?_⟩
          · rw [hmid]
            simp only [List.cons_append, List.nil_append]
            rw [hfront2]
          · rw [hshr, hred, hres]
    · have hs0 : s - L.length = 0 := by omega
      have hright : en + 1 < L.length + M.length := by
        rcases hcut with h | h
        · omega
        · exact h
      have hres := shrink_take_enc mid hvalid clast hlast (en + 1 - L.length)
        (by rw [hMlen_mid]; omega) (by rw [hMlen_mid]; omega)
      rcases hres with hres | hres
      · refine ⟨[], mid, [], by simp, by simp, by simp, ?_⟩
        rw [hshr, hs0, List.drop_zero, hM]
        exact hres
      · obtain ⟨hfrontm, _⟩ := enc_last_decomp mid clast hlast
        refine ⟨[], mid.dropLast, [clast], ?_, by simp, by simp, ?_⟩
        · simp only [List.nil_append]
          exact hfrontm.symm
        · rw [hshr, hs0, List.drop_zero, hM]
          exact hres
  exact ⟨hA, grow_exact blob L M R mid c1 clast s en hblob hM hvalid hhead
    hlast hLs hsc1 hencl hen hsen hblen, hC⟩

theorem claim_C10_get_lines_strict_witness :
    (∃ e, sync_get_lines [65, 66, 67, 68, 228, 184, 173, 69, 70, 71, 72, 73]
      none (some 5) (some 6) = .error (.unicodeDecodeError e)) ∧
    (grow_to_valid_string [65, 66, 67, 68, 228, 184, 173, 69, 70, 71, 72, 73]
      none (some 5) (some 6)).result = [0x4E2D] ∧
    (∃ pre inner post, ([0x4E2D] : List Nat) = pre ++ inner ++ post ∧
      pre.length ≤ 1 ∧ post.length ≤ 1 ∧
      (shrink_to_valid_string
        [65, 66, 67, 68, 228, 184, 173, 69, 70, 71, 72, 73]
        none (some 5) (some 6)).result = inner) :=
  claim_C10_get_lines_strict
    [65, 66, 67, 68, 228, 184, 173, 69, 70, 71, 72, 73]
    [65, 66, 67, 68] [228, 184, 173] [69, 70, 71, 72, 73] [0x4E2D]
    0x4E2D 0x4E2D 5 6 (by decide) (by decide) (by decide) (by decide)
    (by decide) (by decide) (by decide) (by decide) (by decide) (by decide)
    (by decide) (Or.inl (by decide))

end Urlblob
